import Mathlib

/-!
Shallow embedding of `src/util/heap.h`: an indexed binary min-heap over
integer keys with a pluggable strict comparator `LT`.

The C++ class `heap<LT>` keeps two parallel `int_vector`s:
`m_keys` (the position array, 1-indexed, slot 0 holds the sentinel `-1`)
and `m_indices` (key -> slot, sized to the declared capacity, 0 = absent).
We model `m_keys` as `List Int` (so the `-1` sentinel is representable) and
`m_indices` as `List Nat` (every value ever stored there is a non-negative
slot number).  Out-of-range reads (undefined behavior in C++) are modelled
with `List.getD _ _ 0`.  The two `while (true)` loops `move_up`/`move_down`
are modelled with an explicit fuel argument; the call sites pass fuel that
is provably never exhausted (`move_up` strictly decreases the slot, so
`idx` steps suffice; `move_down` at least doubles the slot, so `size`
steps suffice), which keeps every definition structurally recursive and
executable.
-/

/-- `left(i) = i << 1` from heap.h. -/
def Heap.left (i : Nat) : Nat := 2 * i

/-- `right(i) = (i << 1) + 1` from heap.h. -/
def Heap.right (i : Nat) : Nat := 2 * i + 1

/-- `parent(i) = i >> 1` from heap.h. -/
def Heap.parent (i : Nat) : Nat := i / 2

/-- The state of a `heap<LT>`: the comparator and the two arrays. -/
structure Heap where
  lt : Int → Int → Bool
  keys : List Int
  indices : List Nat

/-- The constructor `heap(int s, const LT &lt)`: push the sentinel `-1`
into `m_keys` and size `m_indices` to `s` zeros (`set_bounds`). -/
def Heap.make (s : Nat) (lt : Int → Int → Bool) : Heap :=
  ⟨lt, [-1], List.replicate s 0⟩

/-- The loop of `move_up`: while the parent exists and the in-hand `key`
sorts before the parent key, shift the parent key down one slot (updating
its index entry) and continue from the parent slot.  Returns the final
`(m_keys, m_indices, idx)` just before the two final writes. -/
def Heap.moveUpGo (lt : Int → Int → Bool) (key : Int) :
    Nat → List Int → List Nat → Nat → List Int × List Nat × Nat
  | 0, keys, indices, idx => (keys, indices, idx)
  | fuel + 1, keys, indices, idx =>
    let pidx := Heap.parent idx
    let pkey := keys.getD pidx 0
    if pidx = 0 ∨ lt key pkey = false then (keys, indices, idx)
    else Heap.moveUpGo lt key fuel (keys.set idx pkey) (indices.set pkey.toNat idx) pidx

/-- `move_up(idx)`: read the key at `idx`, run the loop, then write the key
at the final slot and update its index entry. -/
def Heap.moveUp (h : Heap) (idx : Nat) : Heap :=
  let key := h.keys.getD idx 0
  let r := Heap.moveUpGo h.lt key idx h.keys h.indices idx
  ⟨h.lt, r.1.set r.2.2 key, r.2.1.set key.toNat r.2.2⟩

/-- The loop of `move_down`: while a child exists, pick the smaller child
(`min_idx`; left wins ties), stop if the in-hand `key` sorts strictly
before it, otherwise shift the child key up one slot and continue from the
child slot. -/
def Heap.moveDownGo (lt : Int → Int → Bool) (key : Int) (sz : Nat) :
    Nat → List Int → List Nat → Nat → List Int × List Nat × Nat
  | 0, keys, indices, idx => (keys, indices, idx)
  | fuel + 1, keys, indices, idx =>
    let lidx := Heap.left idx
    if sz ≤ lidx then (keys, indices, idx)
    else
      let lkey := keys.getD lidx 0
      let ridx := Heap.right idx
      let minIdx := if ridx < sz ∧ lt (keys.getD ridx 0) lkey = true then ridx else lidx
      let minKey := keys.getD minIdx 0
      if lt key minKey = true then (keys, indices, idx)
      else Heap.moveDownGo lt key sz fuel (keys.set idx minKey) (indices.set minKey.toNat idx) minIdx

/-- `move_down(idx)`: read the key at `idx`, run the loop, then write the
key at the final slot and update its index entry. -/
def Heap.moveDown (h : Heap) (idx : Nat) : Heap :=
  let key := h.keys.getD idx 0
  let r := Heap.moveDownGo h.lt key h.keys.length h.keys.length h.keys h.indices idx
  ⟨h.lt, r.1.set r.2.2 key, r.2.1.set key.toNat r.2.2⟩

/-- `less_than(v1, v2)`. -/
def Heap.lessThan (h : Heap) (a b : Int) : Bool := h.lt a b

/-- `get_key(index)`. -/
def Heap.getKey (h : Heap) (index : Nat) : Int := h.keys.getD index 0

/-- `get_index(key)`. -/
def Heap.getIndex (h : Heap) (key : Int) : Nat := h.indices.getD key.toNat 0

/-- `empty()`: `m_keys.size() == 1`. -/
def Heap.empty (h : Heap) : Bool := h.keys.length = 1

/-- `contains(key)`: `key < m_indices.size() && m_indices[key] != 0`.
(A negative `key` would be undefined behavior in C++; `Int.toNat` clamps.) -/
def Heap.contains (h : Heap) (key : Int) : Bool :=
  decide (key < (h.indices.length : Int)) && decide (h.indices.getD key.toNat 0 ≠ 0)

/-- `reset()`: if empty, do nothing; else zero `m_indices` (memset) and
shrink `m_keys` back to just the sentinel. -/
def Heap.reset (h : Heap) : Heap :=
  if h.keys.length = 1 then h else ⟨h.lt, [-1], List.replicate h.indices.length 0⟩

/-- `clear()`. -/
def Heap.clear (h : Heap) : Heap := h.reset

/-- The loop of `heapify()`: `for (i = n/2; i > 0; --i) move_down(i)`. -/
def Heap.heapifyGo : Heap → Nat → Heap
  | h, 0 => h
  | h, i + 1 => Heap.heapifyGo (h.moveDown (i + 1)) i

/-- `heapify()` with `n = m_keys.size() - 1`. -/
def Heap.heapify (h : Heap) : Heap := Heap.heapifyGo h ((h.keys.length - 1) / 2)

/-- `set_bounds(s)`: `m_indices.resize(s, 0)`. -/
def Heap.setBounds (h : Heap) (s : Nat) : Heap :=
  ⟨h.lt, h.keys, h.indices.take s ++ List.replicate (s - h.indices.length) 0⟩

/-- `get_bounds()`. -/
def Heap.getBounds (h : Heap) : Nat := h.indices.length

/-- `size()`: returns `m_indices.size()`, the declared capacity. -/
def Heap.size (h : Heap) : Nat := h.indices.length

/-- `reserve(s)`: grow the bounds when `s > m_indices.size()`. -/
def Heap.reserve (h : Heap) (s : Nat) : Heap :=
  if h.indices.length < s then h.setBounds s else h

/-- `min_value()`: `m_keys[1]`. -/
def Heap.minValue (h : Heap) : Int := h.keys.getD 1 0

/-- `erase_min()`: remove and return the root key.  If only one element is
present, just pop; otherwise move the last key into the root, pop, and
sift it down. -/
def Heap.eraseMin (h : Heap) : Heap × Int :=
  let result := h.keys.getD 1 0
  if h.keys.length = 2 then
    (⟨h.lt, h.keys.dropLast, h.indices.set result.toNat 0⟩, result)
  else
    let lastKey := h.keys.getD (h.keys.length - 1) 0
    let keys1 := (h.keys.set 1 lastKey).dropLast
    let indices1 := (h.indices.set lastKey.toNat 1).set result.toNat 0
    (Heap.moveDown ⟨h.lt, keys1, indices1⟩ 1, result)

/-- `erase(key)`: if the key sits in the last slot just pop it, otherwise
move the last key into its slot, pop, and sift up or down depending on the
comparison with the new parent. -/
def Heap.erase (h : Heap) (key : Int) : Heap :=
  let idx := h.indices.getD key.toNat 0
  if idx = h.keys.length - 1 then
    ⟨h.lt, h.keys.dropLast, h.indices.set key.toNat 0⟩
  else
    let lastKey := h.keys.getD (h.keys.length - 1) 0
    let keys1 := (h.keys.set idx lastKey).dropLast
    let indices1 := (h.indices.set lastKey.toNat idx).set key.toNat 0
    let h1 : Heap := ⟨h.lt, keys1, indices1⟩
    let pidx := Heap.parent idx
    if pidx ≠ 0 ∧ h.lt lastKey (keys1.getD pidx 0) = true then h1.moveUp idx
    else h1.moveDown idx

/-- `decreased(key)`: sift up from the key's slot. -/
def Heap.decreased (h : Heap) (key : Int) : Heap := h.moveUp (h.indices.getD key.toNat 0)

/-- `increased(key)`: sift down from the key's slot. -/
def Heap.increased (h : Heap) (key : Int) : Heap := h.moveDown (h.indices.getD key.toNat 0)

/-- `insert(key)`: record the append slot in `m_indices`, push the key at
the end of `m_keys`, and sift it up. -/
def Heap.insert (h : Heap) (key : Int) : Heap :=
  let idx := h.keys.length
  Heap.moveUp ⟨h.lt, h.keys ++ [key], h.indices.set key.toNat idx⟩ idx

/-- The loop of `find_le`: a stack of slots to visit (head = top).  A slot
is explored only if it is in range and its key does not sort after the
threshold; then its key is appended to `result` and both children are
pushed (left first, so the right child is visited first, as in the C++
stack).  Fuel `2 * m_keys.size()` is provably sufficient. -/
def Heap.findLeGo (lt : Int → Int → Bool) (keys : List Int) (key : Int) :
    Nat → List Nat → List Int → List Int
  | 0, _, result => result
  | _ + 1, [], result => result
  | fuel + 1, index :: todo, result =>
    if index < keys.length ∧ lt key (keys.getD index 0) = false then
      Heap.findLeGo lt keys key fuel (Heap.right index :: Heap.left index :: todo)
        (result ++ [keys.getD index 0])
    else Heap.findLeGo lt keys key fuel todo result

/-- `find_le(key, result)`: collect every present key not sorting after
`key` into `result`, pruning unqualified subtrees. -/
def Heap.findLe (h : Heap) (key : Int) (result : List Int) : List Int :=
  Heap.findLeGo h.lt h.keys key (2 * h.keys.length) [1] result

/-- The two representation invariants checked by `check_invariant_core`:
the position array has at least the sentinel and `-1` at slot 0; every
occupied slot is inverted exactly by the index array (and its key is a
valid in-range non-negative value); every non-sentinel index entry points
back at a slot holding that key; and every occupied slot `i ≥ 2` does not
sort before its parent. -/
def Heap.Inv (h : Heap) : Prop :=
  1 ≤ h.keys.length ∧ h.keys.getD 0 0 = -1 ∧
  (∀ i, i < h.keys.length → 1 ≤ i →
    0 ≤ h.keys.getD i 0 ∧ (h.keys.getD i 0).toNat < h.indices.length ∧
    h.indices.getD (h.keys.getD i 0).toNat 0 = i) ∧
  (∀ v, v < h.indices.length → h.indices.getD v 0 ≠ 0 →
    h.indices.getD v 0 < h.keys.length ∧ h.keys.getD (h.indices.getD v 0) 0 = (v : Int)) ∧
  (∀ i, i < h.keys.length → 2 ≤ i → h.lt (h.keys.getD i 0) (h.keys.getD (i / 2) 0) = false)

instance (h : Heap) : Decidable h.Inv := by
  unfold Heap.Inv; infer_instance

/-- The comparator contract from the spec: `less_than` is a strict weak
order (the complement of its converse is a total preorder): it is
asymmetric and its complement is transitive. -/
def WeakLT (lt : Int → Int → Bool) : Prop :=
  (∀ a b, lt a b = true → lt b a = false) ∧
  (∀ a b c, lt b a = false → lt c b = false → lt c a = false)

/-- Loop invariant of the `move_up` loop: the slot `idx` is a conceptual
hole (its array cell is stale), the moving key `key` is in hand, both
representation invariants hold away from the hole, no other slot holds
`key`, heap order holds at every parent edge not ending at the hole, and
the children of the hole (when any) sort no earlier than the in-hand key
once the loop is about to stop, and no earlier than the hole's parent key. -/
structure UpInv (lt : Int → Int → Bool) (key : Int) (keys : List Int) (indices : List Nat)
    (idx : Nat) : Prop where
  idx_pos : 1 ≤ idx
  idx_lt : idx < keys.length
  sent : keys.getD 0 0 = -1
  key_nonneg : 0 ≤ key
  key_lt : key.toNat < indices.length
  inv : ∀ i, i < keys.length → 1 ≤ i → i ≠ idx →
    0 ≤ keys.getD i 0 ∧ (keys.getD i 0).toNat < indices.length ∧
    indices.getD (keys.getD i 0).toNat 0 = i
  fresh : ∀ i, i < keys.length → 1 ≤ i → i ≠ idx → keys.getD i 0 ≠ key
  rev : ∀ v, v < indices.length → v ≠ key.toNat → indices.getD v 0 ≠ 0 →
    indices.getD v 0 < keys.length ∧ indices.getD v 0 ≠ idx ∧
    keys.getD (indices.getD v 0) 0 = (v : Int)
  ord : ∀ j, j < keys.length → 2 ≤ j → j ≠ idx → j / 2 ≠ idx →
    lt (keys.getD j 0) (keys.getD (j / 2) 0) = false
  childStop : ∀ c, c < keys.length → (c = 2 * idx ∨ c = 2 * idx + 1) →
    (idx / 2 = 0 ∨ lt key (keys.getD (idx / 2) 0) = false) →
    lt (keys.getD c 0) key = false
  childG : ∀ c, c < keys.length → (c = 2 * idx ∨ c = 2 * idx + 1) → 1 ≤ idx / 2 →
    lt (keys.getD c 0) (keys.getD (idx / 2) 0) = false

/-- What holds of the raw loop result `r = (m_keys, m_indices, idx)` once
the two final writes of the sift are performed on it. -/
structure SiftPost (lt : Int → Int → Bool) (key : Int) (keys : List Int) (indices : List Nat)
    (idx : Nat) (r : List Int × List Nat × Nat) : Prop where
  klen : r.1.length = keys.length
  ilen : r.2.1.length = indices.length
  fpos : 1 ≤ r.2.2
  flt : r.2.2 < keys.length
  inv : Heap.Inv ⟨lt, r.1.set r.2.2 key, r.2.1.set key.toNat r.2.2⟩
  perm : (↑((r.1.set r.2.2 key).drop 1) : Multiset Int) =
    (↑((keys.set idx key).drop 1) : Multiset Int)

/-! ## The sift-down loop invariant -/

/-- Loop invariant of the `move_down` loop: the slot `idx` is a conceptual
hole, the moving key `key` is in hand, both representation invariants hold
away from the hole, heap order holds at every parent edge whose parent is
not the hole, and both the in-hand key and the hole's children sort no
earlier than the key above the hole. -/
structure DnInv (lt : Int → Int → Bool) (key : Int) (keys : List Int) (indices : List Nat)
    (idx : Nat) : Prop where
  idx_pos : 1 ≤ idx
  idx_lt : idx < keys.length
  sent : keys.getD 0 0 = -1
  key_nonneg : 0 ≤ key
  key_lt : key.toNat < indices.length
  inv : ∀ i, i < keys.length → 1 ≤ i → i ≠ idx →
    0 ≤ keys.getD i 0 ∧ (keys.getD i 0).toNat < indices.length ∧
    indices.getD (keys.getD i 0).toNat 0 = i
  fresh : ∀ i, i < keys.length → 1 ≤ i → i ≠ idx → keys.getD i 0 ≠ key
  rev : ∀ v, v < indices.length → v ≠ key.toNat → indices.getD v 0 ≠ 0 →
    indices.getD v 0 < keys.length ∧ indices.getD v 0 ≠ idx ∧
    keys.getD (indices.getD v 0) 0 = (v : Int)
  ord : ∀ j, j < keys.length → 2 ≤ j → j ≠ idx → j / 2 ≠ idx →
    lt (keys.getD j 0) (keys.getD (j / 2) 0) = false
  pairUp : 1 ≤ idx / 2 → lt key (keys.getD (idx / 2) 0) = false
  childUp : ∀ c, c < keys.length → (c = 2 * idx ∨ c = 2 * idx + 1) → 1 ≤ idx / 2 →
    lt (keys.getD c 0) (keys.getD (idx / 2) 0) = false

/-! ## Operation traces -/

/-- The mutating operations of the public API.  `swapWith ks idxs` models
`swap` with another heap holding arrays `ks`/`idxs`: `heap::swap`
exchanges only the two vectors, the comparator subobject stays. -/
inductive HeapOp where
  | insert (key : Int)
  | eraseMin
  | erase (key : Int)
  | decreased (key : Int)
  | increased (key : Int)
  | heapify
  | reserve (s : Nat)
  | reset
  | swapWith (ks : List Int) (idxs : List Nat)

/-- Execute one operation. -/
def Heap.step (h : Heap) : HeapOp → Heap
  | .insert k => h.insert k
  | .eraseMin => (h.eraseMin).1
  | .erase k => h.erase k
  | .decreased k => h.decreased k
  | .increased k => h.increased k
  | .heapify => h.heapify
  | .reserve s => h.reserve s
  | .reset => h.reset
  | .swapWith ks idxs => ⟨h.lt, ks, idxs⟩

/-- The stated precondition of each operation: `insert` needs a fresh
in-range key (`is_valid_value` plus the `!contains` assertion), `erase_min`
a non-empty heap, `erase`/`decreased`/`increased` a present key in the
non-negative key domain, and `swap` a well-formed other heap (its
`check_invariant` assertion). -/
def Heap.validOp (h : Heap) : HeapOp → Bool
  | .insert k => decide (0 ≤ k) && decide (k.toNat < h.indices.length) && !(h.contains k)
  | .eraseMin => decide (h.keys.length ≠ 1)
  | .erase k => decide (0 ≤ k) && h.contains k
  | .decreased k => decide (0 ≤ k) && h.contains k
  | .increased k => decide (0 ≤ k) && h.contains k
  | .heapify => true
  | .reserve _ => true
  | .reset => true
  | .swapWith ks idxs => decide (Heap.Inv ⟨h.lt, ks, idxs⟩)

/-- A whole sequence of operations is valid when each operation satisfies
its precondition in the state it runs in. -/
def Heap.validSeq (h : Heap) : List HeapOp → Bool
  | [] => true
  | op :: ops => h.validOp op && Heap.validSeq (h.step op) ops

/-- Run a sequence of operations. -/
def Heap.run (h : Heap) : List HeapOp → Heap
  | [] => h
  | op :: ops => Heap.run (h.step op) ops

/-- One step of the history-derived membership status of key `k`:
set by `insert k`, cleared by `erase k`, by an `erase_min` returning `k`,
and by `reset`; replaced wholesale by `swap`. -/
def Heap.removalStatus (k : Int) (h : Heap) (s : Bool) : HeapOp → Bool
  | .insert j => if j = k then true else s
  | .erase j => if j = k then false else s
  | .eraseMin => if h.minValue = k then false else s
  | .reset => false
  | .swapWith ks idxs => Heap.contains ⟨h.lt, ks, idxs⟩ k
  | _ => s

/-- The membership status of key `k` after a sequence of operations,
derived from the history alone (threading the current heap only to name
the key that `erase_min` returns and the incoming arrays of `swap`). -/
def Heap.statusAfter (k : Int) : Heap → Bool → List HeapOp → Bool
  | _, s, [] => s
  | h, s, op :: ops => Heap.statusAfter k (h.step op) (Heap.removalStatus k h s op) ops

/-! ## Extraction order -/

/-- Repeatedly call `erase_min` until the heap is empty, collecting the
results (fuel `m_keys.size()` is exact: each call pops one slot). -/
def Heap.extractAllGo : Nat → Heap → List Int
  | 0, _ => []
  | fuel + 1, h =>
    if h.keys.length = 1 then []
    else (h.eraseMin).2 :: Heap.extractAllGo fuel (h.eraseMin).1

def Heap.extractAll (h : Heap) : List Int := Heap.extractAllGo h.keys.length h

/-! ## The find_le traversal -/

/-- `InSub i j`: slot `j` lies in the subtree rooted at slot `i`
(`j` reaches `i` by repeated halving).  The bound `d ≤ j` makes the
existential decidable and is harmless: for `1 ≤ i`, `j / 2 ^ d = i`
forces `2 ^ d ≤ j`. -/
def InSub (i j : Nat) : Prop := ∃ d, d ≤ j ∧ j / 2 ^ d = i

instance (i j : Nat) : Decidable (InSub i j) :=
  decidable_of_iff ((List.range (j + 1)).any (fun d => j / 2 ^ d == i) = true) (by
    simp only [List.any_eq_true, List.mem_range, beq_iff_eq, InSub]
    constructor
    · rintro ⟨d, hd, he⟩
      exact ⟨d, by omega, he⟩
    · rintro ⟨d, hd, he⟩
      exact ⟨d, by omega, he⟩)

/-- The slots of the subtree rooted at `i` that exist in a heap of
position-array size `sz`. -/
def subSlots (sz i : Nat) : Finset Nat :=
  (Finset.range sz).filter (fun j => 1 ≤ j ∧ InSub i j)

/-- Number of live slots in the subtree at `i`. -/
def subCount (sz i : Nat) : Nat := (subSlots sz i).card

/-- Termination potential of the `find_le` work stack. -/
def stackPhi (sz : Nat) (todo : List Nat) : Nat :=
  (todo.map (fun i => 2 * subCount sz i + 1)).sum

/-- The multiset of qualifying keys in the subtree rooted at `i`. -/
def qualMS (lt : Int → Int → Bool) (keys : List Int) (t : Int) (i : Nat) : Multiset Int :=
  ∑ j ∈ subSlots keys.length i,
    (if lt t (keys.getD j 0) = false then ({keys.getD j 0} : Multiset Int) else 0)

/-! ## Derived definitions and concrete instances -/

/-- The child slot that `move_down` compares against: the right child when
it exists and sorts strictly before the left child, else the left child. -/
def minChildIdx (h : Heap) (i : Nat) : Nat :=
  if Heap.right i < h.keys.length ∧
      h.lt (h.keys.getD (Heap.right i) 0) (h.keys.getD (Heap.left i) 0) = true
  then Heap.right i else Heap.left i

def ascLt : Int → Int → Bool := fun a b => decide (a < b)

def tieLt : Int → Int → Bool := fun a b => decide (a / 2 < b / 2)

def demoHeap1 : Heap := (((Heap.make 5 ascLt).insert 4).insert 1).insert 3

def demoHeap2 : Heap := ((demoHeap1.eraseMin.1).insert 0).erase 3

def demoHeap5 : Heap := (((((Heap.make 5 ascLt).insert 0).insert 1).insert 2).insert 3).insert 4

def tieHeapDown : Heap := ⟨tieLt, [-1, 6, 7], [0, 0, 0, 0, 0, 0, 1, 2]⟩

def tieHeapInc : Heap := ⟨tieLt, [-1, 4, 5], [0, 0, 0, 0, 1, 2]⟩

def roundHeap : Heap := ⟨tieLt, [-1, 0, 4, 1, 5], [1, 3, 0, 0, 2, 4]⟩

def roundBase : Heap := (Heap.make 3 ascLt).insert 0

/-! ## List access toolkit -/

theorem getD_set_self (l : List α) (i : Nat) (v d : α) (h : i < l.length) :
    (l.set i v).getD i d = v := by
  simp [List.getD_eq_getElem?_getD, List.getElem?_set_self, h]

theorem getD_set_ne (l : List α) (i j : Nat) (v d : α) (h : i ≠ j) :
    (l.set i v).getD j d = l.getD j d := by
  simp [List.getD_eq_getElem?_getD, List.getElem?_set_ne h]

theorem set_getD_self (l : List α) (i : Nat) (d : α) (h : i < l.length) :
    l.set i (l.getD i d) = l := by
  have hg : l.getD i d = l[i] := by
    simp [List.getD_eq_getElem?_getD, List.getElem?_eq_getElem h]
  rw [hg]
  apply List.ext_getElem?
  intro j
  by_cases hij : i = j
  · subst hij; simp [List.getElem?_set_self, h, List.getElem?_eq_getElem h]
  · simp [List.getElem?_set_ne hij]

theorem getD_oob (l : List α) (i : Nat) (d : α) (h : l.length ≤ i) : l.getD i d = d := by
  simp [List.getD_eq_getElem?_getD, List.getElem?_eq_none h]

theorem getD_append_left (l l2 : List α) (i : Nat) (d : α) (h : i < l.length) :
    (l ++ l2).getD i d = l.getD i d := by
  simp [List.getD_eq_getElem?_getD, List.getElem?_append_left h]

theorem getD_append_last (l : List α) (x d : α) : (l ++ [x]).getD l.length d = x := by
  rw [List.getD_eq_getElem?_getD]
  rw [List.getElem?_append_right (Nat.le_refl _)]
  simp

theorem getD_dropLast (l : List α) (i : Nat) (d : α) (h : i < l.length - 1) :
    l.dropLast.getD i d = l.getD i d := by
  simp only [List.getD_eq_getElem?_getD]
  rw [List.getElem?_dropLast]
  simp [h]

theorem getD_replicate_zero (n i : Nat) (d : Nat) (h : i < n) :
    (List.replicate n 0).getD i d = 0 := by
  simp [List.getD_eq_getElem?_getD, List.getElem?_replicate, h]

theorem mem_drop_one (l : List α) (d : α) (j : Nat) (h1 : 1 ≤ j) (h2 : j < l.length) :
    l.getD j d ∈ l.drop 1 := by
  rw [List.getD_eq_getElem?_getD, List.getElem?_eq_getElem h2]
  simp only [Option.getD_some]
  have hb : j - 1 < (l.drop 1).length := by simp; omega
  rw [show l[j] = (l.drop 1)[j - 1] by rw [List.getElem_drop]; congr 1; omega]
  exact List.getElem_mem hb

theorem exists_slot_of_mem_drop_one (l : List α) (d : α) (x : α) (h : x ∈ l.drop 1) :
    ∃ j, 1 ≤ j ∧ j < l.length ∧ l.getD j d = x := by
  obtain ⟨i, hi, hx⟩ := List.getElem_of_mem h
  have hlen : i < l.length - 1 := by simpa using hi
  refine ⟨i + 1, by omega, by omega, ?_⟩
  rw [List.getElem_drop] at hx
  rw [List.getD_eq_getElem?_getD, List.getElem?_eq_getElem (by omega : i + 1 < l.length)]
  simpa [Nat.add_comm] using hx

/-! ## Comparator facts -/

theorem WeakLT.irrefl (W : WeakLT lt) (a : Int) : lt a a = false := by
  by_cases h : lt a a = true
  · have := W.1 a a h; rw [this] at h; exact absurd h (by simp)
  · simpa using h

theorem WeakLT.lt_of_lt_of_nlt (W : WeakLT lt) {a b c : Int}
    (h1 : lt a b = true) (h2 : lt c b = false) : lt a c = true := by
  by_cases h : lt a c = true
  · exact h
  · exfalso
    have hac : lt a c = false := by simpa using h
    have := W.2 b c a h2 hac
    rw [this] at h1
    exact absurd h1 (by simp)

/-- Any comparator of the shape `fun a b => decide (f a < f b)` is a strict
weak order; this covers both concrete comparators used below. -/
theorem weakLT_of_measure (f : Int → Int) : WeakLT (fun a b => decide (f a < f b)) := by
  constructor
  · intro a b h
    simp only [decide_eq_true_eq] at h
    simp only [decide_eq_false_iff_not]
    omega
  · intro a b c h1 h2
    simp only [decide_eq_false_iff_not] at h1 h2 ⊢
    omega

/-! ## Multiset bookkeeping for in-place writes -/

theorem drop_one_set (l : List α) (i : Nat) (v : α) (h : 1 ≤ i) :
    (l.set i v).drop 1 = (l.drop 1).set (i - 1) v := by
  rw [List.drop_set]
  simp [Nat.not_lt.mpr h]

theorem getD_drop_one (l : List α) (i : Nat) (d : α) (h : 1 ≤ i) :
    (l.drop 1).getD (i - 1) d = l.getD i d := by
  simp only [List.getD_eq_getElem?_getD, List.getElem?_drop]
  congr 2
  omega

theorem cons_add_singleton_comm (x y : α) (s : Multiset α) :
    (x ::ₘ s) + {y} = (y ::ₘ s) + {x} := by
  rw [← Multiset.singleton_add, ← Multiset.singleton_add]
  abel

theorem multiset_set (l : List α) (i : Nat) (v d : α) (h : i < l.length) :
    (↑(l.set i v) : Multiset α) + {l.getD i d} = (↑l : Multiset α) + {v} := by
  induction l generalizing i with
  | nil => simp at h
  | cons a t ih =>
    cases i with
    | zero =>
      show (↑(v :: t) : Multiset α) + {a} = (↑(a :: t) : Multiset α) + {v}
      rw [← Multiset.cons_coe, ← Multiset.cons_coe]
      exact cons_add_singleton_comm v a ↑t
    | succ n =>
      have hn : n < t.length := by simpa using h
      have iht := ih n hn
      show (↑(a :: t.set n v) : Multiset α) + {t.getD n d} = (↑(a :: t) : Multiset α) + {v}
      rw [← Multiset.cons_coe, ← Multiset.cons_coe, Multiset.cons_add, Multiset.cons_add, iht]

theorem multiset_set_drop1 (l : List α) (i : Nat) (v d : α) (h1 : 1 ≤ i) (h2 : i < l.length) :
    (↑((l.set i v).drop 1) : Multiset α) + {l.getD i d} = (↑(l.drop 1) : Multiset α) + {v} := by
  rw [drop_one_set l i v h1, ← getD_drop_one l i d h1]
  exact multiset_set (l.drop 1) (i - 1) v d (by simp; omega)

theorem multiset_swap_drop1 (l : List α) (i j : Nat) (x d : α) (hi1 : 1 ≤ i) (hj1 : 1 ≤ j)
    (hij : i ≠ j) (hi : i < l.length) (hj : j < l.length) :
    (↑(((l.set i (l.getD j d)).set j x).drop 1) : Multiset α) =
    (↑((l.set i x).drop 1) : Multiset α) := by
  set A := l.set i (l.getD j d) with hA
  have hAlen : A.length = l.length := by rw [hA, List.length_set]
  have ha : (↑(A.drop 1) : Multiset α) + {l.getD i d} = (↑(l.drop 1) : Multiset α) + {l.getD j d} :=
    multiset_set_drop1 l i (l.getD j d) d hi1 hi
  have hAj : A.getD j d = l.getD j d := getD_set_ne l i j _ d hij
  have hb : (↑((A.set j x).drop 1) : Multiset α) + {l.getD j d} = (↑(A.drop 1) : Multiset α) + {x} := by
    rw [← hAj]
    exact multiset_set_drop1 A j x d hj1 (by rw [hAlen]; exact hj)
  have hc : (↑((l.set i x).drop 1) : Multiset α) + {l.getD i d} = (↑(l.drop 1) : Multiset α) + {x} :=
    multiset_set_drop1 l i x d hi1 hi
  have key : (↑((A.set j x).drop 1) : Multiset α) + ({l.getD j d} + {l.getD i d}) =
      (↑((l.set i x).drop 1) : Multiset α) + ({l.getD j d} + {l.getD i d}) := by
    calc (↑((A.set j x).drop 1) : Multiset α) + ({l.getD j d} + {l.getD i d})
    _ = ((↑((A.set j x).drop 1) : Multiset α) + {l.getD j d}) + {l.getD i d} := by abel
    _ = ((↑(A.drop 1) : Multiset α) + {x}) + {l.getD i d} := by rw [hb]
    _ = ((↑(A.drop 1) : Multiset α) + {l.getD i d}) + {x} := by abel
    _ = ((↑(l.drop 1) : Multiset α) + {l.getD j d}) + {x} := by rw [ha]
    _ = ((↑(l.drop 1) : Multiset α) + {x}) + {l.getD j d} := by abel
    _ = ((↑((l.set i x).drop 1) : Multiset α) + {l.getD i d}) + {l.getD j d} := by rw [hc]
    _ = _ := by abel
  exact add_right_cancel key

/-! ## The sift-up master theorem -/

theorem toNat_inj_of_nonneg {a b : Int} (ha : 0 ≤ a) (hb : 0 ≤ b) (h : a.toNat = b.toNat) :
    a = b := by
  rw [← Int.toNat_of_nonneg ha, ← Int.toNat_of_nonneg hb, h]

theorem inv_mk_iff (lt : Int → Int → Bool) (K : List Int) (I : List Nat) :
    Heap.Inv ⟨lt, K, I⟩ ↔
    (1 ≤ K.length ∧ K.getD 0 0 = -1 ∧
    (∀ i, i < K.length → 1 ≤ i →
      0 ≤ K.getD i 0 ∧ (K.getD i 0).toNat < I.length ∧
      I.getD (K.getD i 0).toNat 0 = i) ∧
    (∀ v, v < I.length → I.getD v 0 ≠ 0 →
      I.getD v 0 < K.length ∧ K.getD (I.getD v 0) 0 = (v : Int)) ∧
    (∀ i, i < K.length → 2 ≤ i → lt (K.getD i 0) (K.getD (i / 2) 0) = false)) :=
  Iff.rfl

theorem moveUpGo_spec (lt : Int → Int → Bool) (W : WeakLT lt) (key : Int) :
    ∀ fuel keys indices idx, UpInv lt key keys indices idx → idx ≤ fuel →
    SiftPost lt key keys indices idx (Heap.moveUpGo lt key fuel keys indices idx) := by
  intro fuel
  induction fuel with
  | zero =>
    intro keys indices idx H hf
    exact absurd (Nat.le_trans H.idx_pos hf) (by omega)
  | succ fuel ih =>
    intro keys indices idx H hf
    rw [show Heap.moveUpGo lt key (fuel + 1) keys indices idx =
      (if Heap.parent idx = 0 ∨ lt key (keys.getD (Heap.parent idx) 0) = false
       then (keys, indices, idx)
       else Heap.moveUpGo lt key fuel (keys.set idx (keys.getD (Heap.parent idx) 0))
         (indices.set (keys.getD (Heap.parent idx) 0).toNat idx) (Heap.parent idx)) from rfl]
    simp only [Heap.parent]
    have hlen1 : 1 ≤ keys.length := by have h1 := H.idx_pos; have h2 := H.idx_lt; omega
    by_cases hstop : idx / 2 = 0 ∨ lt key (keys.getD (idx / 2) 0) = false
    · rw [if_pos hstop]
      refine ⟨rfl, rfl, H.idx_pos, H.idx_lt, ?_, rfl⟩
      show Heap.Inv ⟨lt, keys.set idx key, indices.set key.toNat idx⟩
      rw [inv_mk_iff]
      have hK : ∀ i, i ≠ idx → (keys.set idx key).getD i 0 = keys.getD i 0 :=
        fun i hi => getD_set_ne keys idx i key 0 (fun hc => hi hc.symm)
      have hKidx : (keys.set idx key).getD idx 0 = key := getD_set_self keys idx key 0 H.idx_lt
      have hI : ∀ v, v ≠ key.toNat → (indices.set key.toNat idx).getD v 0 = indices.getD v 0 :=
        fun v hv => getD_set_ne indices key.toNat v idx 0 (fun hc => hv hc.symm)
      have hIkey : (indices.set key.toNat idx).getD key.toNat 0 = idx :=
        getD_set_self indices key.toNat idx 0 H.key_lt
      refine ⟨by rw [List.length_set]; exact hlen1, ?_, ?_, ?_, ?_⟩
      · rw [hK 0 (by have := H.idx_pos; omega : (0:Nat) ≠ idx)]; exact H.sent
      · intro i hi h1
        rw [List.length_set] at hi
        by_cases hcase : i = idx
        · subst hcase
          rw [hKidx, List.length_set]
          exact ⟨H.key_nonneg, H.key_lt, hIkey⟩
        · rw [hK i hcase, List.length_set]
          obtain ⟨b1, b2, b3⟩ := H.inv i hi h1 hcase
          have hne : (keys.getD i 0).toNat ≠ key.toNat := by
            intro hEq
            exact H.fresh i hi h1 hcase (toNat_inj_of_nonneg b1 H.key_nonneg hEq)
          rw [hI _ hne]
          exact ⟨b1, b2, b3⟩
      · intro v hv hnz
        rw [List.length_set] at hv
        by_cases hcase : v = key.toNat
        · subst hcase
          rw [hIkey, List.length_set]
          refine ⟨H.idx_lt, ?_⟩
          rw [hKidx, Int.toNat_of_nonneg H.key_nonneg]
        · rw [hI v hcase] at hnz ⊢
          obtain ⟨b1, b2, b3⟩ := H.rev v hv hcase hnz
          rw [List.length_set]
          exact ⟨b1, by rw [hK _ b2]; exact b3⟩
      · intro j hj h2
        rw [List.length_set] at hj
        by_cases hj_idx : j = idx
        · subst hj_idx
          have hpne : j / 2 ≠ j := by omega
          rw [hKidx, hK _ hpne]
          rcases hstop with hz | hlt
          · omega
          · exact hlt
        · by_cases hj_child : j / 2 = idx
          · rw [hK j hj_idx, hj_child, hKidx]
            exact H.childStop j hj (by omega) hstop
          · rw [hK j hj_idx, hK _ hj_child]
            exact H.ord j hj h2 hj_idx hj_child
    · rw [if_neg hstop]
      push_neg at hstop
      obtain ⟨hp0, hkp⟩ := hstop
      simp only [ne_eq, Bool.not_eq_false] at hkp
      have hp1 : 1 ≤ idx / 2 := Nat.one_le_iff_ne_zero.mpr hp0
      have hidx2 : 2 ≤ idx := by omega
      have hplt_idx : idx / 2 < idx := by omega
      have hplt : idx / 2 < keys.length := Nat.lt_trans hplt_idx H.idx_lt
      have hpidx : idx / 2 ≠ idx := by omega
      set p := idx / 2 with hp
      set pk := keys.getD p 0 with hpk
      obtain ⟨pk_nonneg, pk_lt, pk_inv⟩ := H.inv p hplt hp1 hpidx
      have hkeypk : pk ≠ key := by
        intro hEq
        rw [hEq] at hkp
        rw [W.irrefl key] at hkp
        exact absurd hkp (by simp)
      set keysN := keys.set idx pk with hkeysN
      set indicesN := indices.set pk.toNat idx with hindicesN
      have hlenK : keysN.length = keys.length := List.length_set ..
      have hlenI : indicesN.length = indices.length := List.length_set ..
      have hKN : ∀ i, i ≠ idx → keysN.getD i 0 = keys.getD i 0 :=
        fun i hi => getD_set_ne keys idx i pk 0 (fun hc => hi hc.symm)
      have hKNidx : keysN.getD idx 0 = pk := getD_set_self keys idx pk 0 H.idx_lt
      have hIN : ∀ v, v ≠ pk.toNat → indicesN.getD v 0 = indices.getD v 0 :=
        fun v hv => getD_set_ne indices pk.toNat v idx 0 (fun hc => hv hc.symm)
      have hINpk : indicesN.getD pk.toNat 0 = idx := getD_set_self indices pk.toNat idx 0 pk_lt
      have HN : UpInv lt key keysN indicesN p := by
        refine ⟨hp1, by rw [hlenK]; exact hplt, ?_, H.key_nonneg, by rw [hlenI]; exact H.key_lt,
          ?_, ?_, ?_, ?_, ?_, ?_⟩
        · rw [hKN 0 (by omega)]; exact H.sent
        · intro i hi h1 hip
          rw [hlenK] at hi
          rw [hlenI]
          by_cases hcase : i = idx
          · subst hcase
            rw [hKNidx, hINpk]
            exact ⟨pk_nonneg, pk_lt, rfl⟩
          · rw [hKN i hcase]
            obtain ⟨b1, b2, b3⟩ := H.inv i hi h1 hcase
            have hne : (keys.getD i 0).toNat ≠ pk.toNat := by
              intro hEq
              have : keys.getD i 0 = pk := toNat_inj_of_nonneg b1 pk_nonneg hEq
              rw [this, pk_inv] at b3
              exact hip b3.symm
            rw [hIN _ hne]
            exact ⟨b1, b2, b3⟩
        · intro i hi h1 hip
          rw [hlenK] at hi
          by_cases hcase : i = idx
          · subst hcase; rw [hKNidx]; exact hkeypk
          · rw [hKN i hcase]; exact H.fresh i hi h1 hcase
        · intro v hv hvk hnz
          rw [hlenI] at hv
          rw [hlenK]
          by_cases hcase : v = pk.toNat
          · subst hcase
            rw [hINpk]
            refine ⟨H.idx_lt, Ne.symm hpidx, ?_⟩
            rw [hKNidx, Int.toNat_of_nonneg pk_nonneg]
          · rw [hIN v hcase] at hnz ⊢
            obtain ⟨b1, b2, b3⟩ := H.rev v hv hvk hnz
            refine ⟨b1, ?_, ?_⟩
            · intro hc
              rw [hc] at b3
              rw [← hpk] at b3
              apply hcase
              rw [b3, Int.toNat_natCast]
            · rw [hKN _ b2]; exact b3
        · intro j hj h2 hjp hjp2
          rw [hlenK] at hj
          by_cases hj_idx : j = idx
          · subst hj_idx
            exact absurd (by omega : j / 2 = p) hjp2
          · by_cases hj_child : j / 2 = idx
            · rw [hKN j hj_idx, hj_child, hKNidx]
              exact H.childG j hj (by omega) hp1
            · rw [hKN j hj_idx, hKN _ hj_child]
              exact H.ord j hj h2 hj_idx hj_child
        · intro c hc hcp _
          rw [hlenK] at hc
          by_cases hcase : c = idx
          · subst hcase
            rw [hKNidx]
            exact W.1 key pk hkp
          · rw [hKN c hcase]
            have hc2 : 2 ≤ c := by omega
            have hcp2 : c / 2 = p := by omega
            have hord := H.ord c hc hc2 hcase (by omega)
            rw [hcp2] at hord
            have := W.lt_of_lt_of_nlt hkp hord
            exact W.1 key (keys.getD c 0) this
        · intro c hc hcp hpp
          rw [hlenK] at hc
          have hpplt : p / 2 < keys.length := by omega
          have hppidx : p / 2 ≠ idx := by omega
          have hp2 : 2 ≤ p := by omega
          have hordp := H.ord p hplt hp2 hpidx (by omega)
          by_cases hcase : c = idx
          · subst hcase
            rw [hKNidx, hKN _ hppidx]
            exact hordp
          · rw [hKN c hcase, hKN _ hppidx]
            have hc2 : 2 ≤ c := by omega
            have hcp2 : c / 2 = p := by omega
            have hord := H.ord c hc hc2 hcase (by omega)
            rw [hcp2] at hord
            exact W.2 (keys.getD (p / 2) 0) pk (keys.getD c 0) hordp hord
      have hfN : p ≤ fuel := by omega
      have post := ih keysN indicesN p HN hfN
      refine ⟨?_, ?_, post.fpos, ?_, post.inv, ?_⟩
      · rw [post.klen, hlenK]
      · rw [post.ilen, hlenI]
      · rw [← hlenK]; exact post.flt
      · rw [post.perm]
        exact multiset_swap_drop1 keys idx p key 0 H.idx_pos hp1 (Ne.symm hpidx) H.idx_lt hplt

theorem moveDownGo_spec (lt : Int → Int → Bool) (W : WeakLT lt) (key : Int) (sz : Nat) :
    ∀ fuel keys indices idx, DnInv lt key keys indices idx → sz = keys.length →
    sz - idx ≤ fuel →
    SiftPost lt key keys indices idx (Heap.moveDownGo lt key sz fuel keys indices idx) := by
  intro fuel
  induction fuel with
  | zero =>
    intro keys indices idx H hsz hf
    exact absurd H.idx_lt (by omega)
  | succ fuel ih =>
    intro keys indices idx H hsz hf
    rw [show Heap.moveDownGo lt key sz (fuel + 1) keys indices idx =
      (if sz ≤ Heap.left idx then (keys, indices, idx)
       else
        if lt key (keys.getD (if Heap.right idx < sz ∧
            lt (keys.getD (Heap.right idx) 0) (keys.getD (Heap.left idx) 0) = true
          then Heap.right idx else Heap.left idx) 0) = true
        then (keys, indices, idx)
        else Heap.moveDownGo lt key sz fuel
          (keys.set idx (keys.getD (if Heap.right idx < sz ∧
              lt (keys.getD (Heap.right idx) 0) (keys.getD (Heap.left idx) 0) = true
            then Heap.right idx else Heap.left idx) 0))
          (indices.set (keys.getD (if Heap.right idx < sz ∧
              lt (keys.getD (Heap.right idx) 0) (keys.getD (Heap.left idx) 0) = true
            then Heap.right idx else Heap.left idx) 0).toNat idx)
          (if Heap.right idx < sz ∧
              lt (keys.getD (Heap.right idx) 0) (keys.getD (Heap.left idx) 0) = true
            then Heap.right idx else Heap.left idx)) from rfl]
    simp only [Heap.left, Heap.right]
    have hlen1 : 1 ≤ keys.length := by have h1 := H.idx_pos; have h2 := H.idx_lt; omega
    by_cases hnc : sz ≤ 2 * idx
    · rw [if_pos hnc]
      refine ⟨rfl, rfl, H.idx_pos, H.idx_lt, ?_, rfl⟩
      show Heap.Inv ⟨lt, keys.set idx key, indices.set key.toNat idx⟩
      rw [inv_mk_iff]
      have hK : ∀ i, i ≠ idx → (keys.set idx key).getD i 0 = keys.getD i 0 :=
        fun i hi => getD_set_ne keys idx i key 0 (fun hc => hi hc.symm)
      have hKidx : (keys.set idx key).getD idx 0 = key := getD_set_self keys idx key 0 H.idx_lt
      have hI : ∀ v, v ≠ key.toNat → (indices.set key.toNat idx).getD v 0 = indices.getD v 0 :=
        fun v hv => getD_set_ne indices key.toNat v idx 0 (fun hc => hv hc.symm)
      have hIkey : (indices.set key.toNat idx).getD key.toNat 0 = idx :=
        getD_set_self indices key.toNat idx 0 H.key_lt
      refine ⟨by rw [List.length_set]; exact hlen1, ?_, ?_, ?_, ?_⟩
      · rw [hK 0 (by have := H.idx_pos; omega : (0:Nat) ≠ idx)]; exact H.sent
      · intro i hi h1
        rw [List.length_set] at hi
        by_cases hcase : i = idx
        · subst hcase
          rw [hKidx, List.length_set]
          exact ⟨H.key_nonneg, H.key_lt, hIkey⟩
        · rw [hK i hcase, List.length_set]
          obtain ⟨b1, b2, b3⟩ := H.inv i hi h1 hcase
          have hne : (keys.getD i 0).toNat ≠ key.toNat := by
            intro hEq
            exact H.fresh i hi h1 hcase (toNat_inj_of_nonneg b1 H.key_nonneg hEq)
          rw [hI _ hne]
          exact ⟨b1, b2, b3⟩
      · intro v hv hnz
        rw [List.length_set] at hv
        by_cases hcase : v = key.toNat
        · subst hcase
          rw [hIkey, List.length_set]
          refine ⟨H.idx_lt, ?_⟩
          rw [hKidx, Int.toNat_of_nonneg H.key_nonneg]
        · rw [hI v hcase] at hnz ⊢
          obtain ⟨b1, b2, b3⟩ := H.rev v hv hcase hnz
          rw [List.length_set]
          exact ⟨b1, by rw [hK _ b2]; exact b3⟩
      · intro j hj h2
        rw [List.length_set] at hj
        by_cases hj_idx : j = idx
        · subst hj_idx
          have hpne : j / 2 ≠ j := by omega
          rw [hKidx, hK _ hpne]
          exact H.pairUp (by omega)
        · by_cases hj_child : j / 2 = idx
          · exfalso
            rw [hsz] at hnc
            omega
          · rw [hK j hj_idx, hK _ hj_child]
            exact H.ord j hj h2 hj_idx hj_child
    · rw [if_neg hnc]
      push_neg at hnc
      set m := (if 2 * idx + 1 < sz ∧
          lt (keys.getD (2 * idx + 1) 0) (keys.getD (2 * idx) 0) = true
        then 2 * idx + 1 else 2 * idx) with hm
      have hm_child : m = 2 * idx ∨ m = 2 * idx + 1 := by
        rw [hm]; split
        · right; rfl
        · left; rfl
      have hm_lt_sz : m < sz := by
        rw [hm]; split
        · omega
        · exact hnc
      have hm_lt : m < keys.length := by rw [← hsz]; exact hm_lt_sz
      have hm_gt : idx < m := by have := H.idx_pos; omega
      have hm_pos : 1 ≤ m := by omega
      have hm_ne : m ≠ idx := by omega
      have hm_par : m / 2 = idx := by omega
      have hsel : ∀ o, (o = 2 * idx ∨ o = 2 * idx + 1) → o < sz → o ≠ m →
          lt (keys.getD o 0) (keys.getD m 0) = false := by
        intro o ho ho_lt ho_ne
        rw [hm]
        by_cases hcond : 2 * idx + 1 < sz ∧
            lt (keys.getD (2 * idx + 1) 0) (keys.getD (2 * idx) 0) = true
        · rw [if_pos hcond]
          have hom : o = 2 * idx := by
            rcases ho with h | h
            · exact h
            · exfalso; apply ho_ne; rw [hm, if_pos hcond, h]
          rw [hom]
          exact W.1 _ _ hcond.2
        · rw [if_neg hcond]
          have hom : o = 2 * idx + 1 := by
            rcases ho with h | h
            · exfalso; apply ho_ne; rw [hm, if_neg hcond, h]
            · exact h
          push_neg at hcond
          rw [hom]
          have := hcond (by omega)
          simpa using this
      by_cases hstop : lt key (keys.getD m 0) = true
      · rw [if_pos hstop]
        refine ⟨rfl, rfl, H.idx_pos, H.idx_lt, ?_, rfl⟩
        show Heap.Inv ⟨lt, keys.set idx key, indices.set key.toNat idx⟩
        rw [inv_mk_iff]
        have hK : ∀ i, i ≠ idx → (keys.set idx key).getD i 0 = keys.getD i 0 :=
          fun i hi => getD_set_ne keys idx i key 0 (fun hc => hi hc.symm)
        have hKidx : (keys.set idx key).getD idx 0 = key := getD_set_self keys idx key 0 H.idx_lt
        have hI : ∀ v, v ≠ key.toNat → (indices.set key.toNat idx).getD v 0 = indices.getD v 0 :=
          fun v hv => getD_set_ne indices key.toNat v idx 0 (fun hc => hv hc.symm)
        have hIkey : (indices.set key.toNat idx).getD key.toNat 0 = idx :=
          getD_set_self indices key.toNat idx 0 H.key_lt
        refine ⟨by rw [List.length_set]; exact hlen1, ?_, ?_, ?_, ?_⟩
        · rw [hK 0 (by have := H.idx_pos; omega : (0:Nat) ≠ idx)]; exact H.sent
        · intro i hi h1
          rw [List.length_set] at hi
          by_cases hcase : i = idx
          · subst hcase
            rw [hKidx, List.length_set]
            exact ⟨H.key_nonneg, H.key_lt, hIkey⟩
          · rw [hK i hcase, List.length_set]
            obtain ⟨b1, b2, b3⟩ := H.inv i hi h1 hcase
            have hne : (keys.getD i 0).toNat ≠ key.toNat := by
              intro hEq
              exact H.fresh i hi h1 hcase (toNat_inj_of_nonneg b1 H.key_nonneg hEq)
            rw [hI _ hne]
            exact ⟨b1, b2, b3⟩
        · intro v hv hnz
          rw [List.length_set] at hv
          by_cases hcase : v = key.toNat
          · subst hcase
            rw [hIkey, List.length_set]
            refine ⟨H.idx_lt, ?_⟩
            rw [hKidx, Int.toNat_of_nonneg H.key_nonneg]
          · rw [hI v hcase] at hnz ⊢
            obtain ⟨b1, b2, b3⟩ := H.rev v hv hcase hnz
            rw [List.length_set]
            exact ⟨b1, by rw [hK _ b2]; exact b3⟩
        · intro j hj h2
          rw [List.length_set] at hj
          by_cases hj_idx : j = idx
          · subst hj_idx
            have hpne : j / 2 ≠ j := by omega
            rw [hKidx, hK _ hpne]
            exact H.pairUp (by omega)
          · by_cases hj_child : j / 2 = idx
            · rw [hK j hj_idx, hj_child, hKidx]
              have hj_lt_sz : j < sz := by rw [hsz]; exact hj
              by_cases hjm : j = m
              · subst hjm
                exact W.1 _ _ hstop
              · have hjc : j = 2 * idx ∨ j = 2 * idx + 1 := by omega
                have ho := hsel j hjc hj_lt_sz hjm
                have := W.lt_of_lt_of_nlt hstop ho
                exact W.1 _ _ this
            · rw [hK j hj_idx, hK _ hj_child]
              exact H.ord j hj h2 hj_idx hj_child
      · rw [if_neg hstop]
        have hstop2 : lt key (keys.getD m 0) = false := by simpa using hstop
        set mk := keys.getD m 0 with hmk
        obtain ⟨mk_nonneg, mk_lt, mk_inv⟩ := H.inv m hm_lt hm_pos hm_ne
        have hkeymk : mk ≠ key := H.fresh m hm_lt hm_pos hm_ne
        set keysN := keys.set idx mk with hkeysN
        set indicesN := indices.set mk.toNat idx with hindicesN
        have hlenK : keysN.length = keys.length := List.length_set ..
        have hlenI : indicesN.length = indices.length := List.length_set ..
        have hKN : ∀ i, i ≠ idx → keysN.getD i 0 = keys.getD i 0 :=
          fun i hi => getD_set_ne keys idx i mk 0 (fun hc => hi hc.symm)
        have hKNidx : keysN.getD idx 0 = mk := getD_set_self keys idx mk 0 H.idx_lt
        have hIN : ∀ v, v ≠ mk.toNat → indicesN.getD v 0 = indices.getD v 0 :=
          fun v hv => getD_set_ne indices mk.toNat v idx 0 (fun hc => hv hc.symm)
        have hINmk : indicesN.getD mk.toNat 0 = idx := getD_set_self indices mk.toNat idx 0 mk_lt
        have HN : DnInv lt key keysN indicesN m := by
          refine ⟨hm_pos, by rw [hlenK]; exact hm_lt, ?_, H.key_nonneg,
            by rw [hlenI]; exact H.key_lt, ?_, ?_, ?_, ?_, ?_, ?_⟩
          · rw [hKN 0 (by have := H.idx_pos; omega)]; exact H.sent
          · intro i hi h1 him
            rw [hlenK] at hi
            rw [hlenI]
            by_cases hcase : i = idx
            · subst hcase
              rw [hKNidx, hINmk]
              exact ⟨mk_nonneg, mk_lt, rfl⟩
            · rw [hKN i hcase]
              obtain ⟨b1, b2, b3⟩ := H.inv i hi h1 hcase
              have hne : (keys.getD i 0).toNat ≠ mk.toNat := by
                intro hEq
                have : keys.getD i 0 = mk := toNat_inj_of_nonneg b1 mk_nonneg hEq
                rw [this, mk_inv] at b3
                exact him b3.symm
              rw [hIN _ hne]
              exact ⟨b1, b2, b3⟩
          · intro i hi h1 him
            rw [hlenK] at hi
            by_cases hcase : i = idx
            · subst hcase; rw [hKNidx]; exact hkeymk
            · rw [hKN i hcase]; exact H.fresh i hi h1 hcase
          · intro v hv hvk hnz
            rw [hlenI] at hv
            rw [hlenK]
            by_cases hcase : v = mk.toNat
            · subst hcase
              rw [hINmk]
              refine ⟨H.idx_lt, by omega, ?_⟩
              rw [hKNidx, Int.toNat_of_nonneg mk_nonneg]
            · rw [hIN v hcase] at hnz ⊢
              obtain ⟨b1, b2, b3⟩ := H.rev v hv hvk hnz
              refine ⟨b1, ?_, ?_⟩
              · intro hc
                rw [hc] at b3
                rw [← hmk] at b3
                apply hcase
                rw [b3, Int.toNat_natCast]
              · rw [hKN _ b2]; exact b3
          · intro j hj h2 hjm hjm2
            rw [hlenK] at hj
            by_cases hj_idx : j = idx
            · subst hj_idx
              rw [hKNidx, hKN _ (by omega : j / 2 ≠ j)]
              exact H.childUp m hm_lt hm_child (by omega)
            · by_cases hj_child : j / 2 = idx
              · rw [hKN j hj_idx, hj_child, hKNidx]
                have hjc : j = 2 * idx ∨ j = 2 * idx + 1 := by omega
                have hj_lt_sz : j < sz := by rw [hsz]; exact hj
                exact hsel j hjc hj_lt_sz hjm
              · rw [hKN j hj_idx, hKN _ hj_child]
                exact H.ord j hj h2 hj_idx hj_child
          · intro _
            rw [hm_par, hKNidx]
            exact hstop2
          · intro c hc hcm _
            rw [hlenK] at hc
            have hc_idx : c ≠ idx := by omega
            rw [hKN c hc_idx, hm_par, hKNidx]
            have hc2 : 2 ≤ c := by omega
            have hcp : c / 2 = m := by omega
            have hord := H.ord c hc hc2 hc_idx (by omega)
            rw [hcp] at hord
            exact hord
        have hfN : sz - m ≤ fuel := by omega
        have post := ih keysN indicesN m HN (by rw [hlenK]; exact hsz) hfN
        refine ⟨?_, ?_, post.fpos, ?_, post.inv, ?_⟩
        · rw [post.klen, hlenK]
        · rw [post.ilen, hlenI]
        · rw [← hlenK]; exact post.flt
        · rw [post.perm]
          exact multiset_swap_drop1 keys idx m key 0 H.idx_pos hm_pos (by omega) H.idx_lt hm_lt

/-! ## Wrappers and invariant instantiation -/

theorem inv_key_inj (h : Heap) (HI : h.Inv) (i j : Nat) (hi1 : 1 ≤ i) (hi2 : i < h.keys.length)
    (hj1 : 1 ≤ j) (hj2 : j < h.keys.length) (hEq : h.keys.getD i 0 = h.keys.getD j 0) : i = j := by
  have b1 := HI.2.2.1 i hi2 hi1
  have b2 := HI.2.2.1 j hj2 hj1
  rw [← b1.2.2, ← b2.2.2, hEq]

theorem upInv_of_inv (h : Heap) (W : WeakLT h.lt) (HI : h.Inv) (idx : Nat)
    (h1 : 1 ≤ idx) (h2 : idx < h.keys.length) :
    UpInv h.lt (h.keys.getD idx 0) h.keys h.indices idx := by
  obtain ⟨b1, b2, b3⟩ := HI.2.2.1 idx h2 h1
  refine ⟨h1, h2, HI.2.1, b1, b2, ?_, ?_, ?_, ?_, ?_, ?_⟩
  · intro i hi hi1 _
    exact HI.2.2.1 i hi hi1
  · intro i hi hi1 hne hEq
    exact hne (inv_key_inj h HI i idx hi1 hi h1 h2 hEq)
  · intro v hv hvk hnz
    obtain ⟨c1, c2⟩ := HI.2.2.2.1 v hv hnz
    refine ⟨c1, ?_, c2⟩
    intro hc
    rw [hc] at c2
    apply hvk
    rw [c2, Int.toNat_natCast]
  · intro j hj hj2 _ _
    exact HI.2.2.2.2 j hj hj2
  · intro c hc hcc _
    have hc2 : 2 ≤ c := by omega
    have hccp : c / 2 = idx := by omega
    have := HI.2.2.2.2 c hc hc2
    rw [hccp] at this
    exact this
  · intro c hc hcc hp1
    have hc2 : 2 ≤ c := by omega
    have hccp : c / 2 = idx := by omega
    have ho1 := HI.2.2.2.2 c hc hc2
    rw [hccp] at ho1
    have ho2 := HI.2.2.2.2 idx h2 (by omega)
    exact W.2 (h.keys.getD (idx / 2) 0) (h.keys.getD idx 0) (h.keys.getD c 0) ho2 ho1

theorem dnInv_of_inv (h : Heap) (W : WeakLT h.lt) (HI : h.Inv) (idx : Nat)
    (h1 : 1 ≤ idx) (h2 : idx < h.keys.length) :
    DnInv h.lt (h.keys.getD idx 0) h.keys h.indices idx := by
  obtain ⟨b1, b2, b3⟩ := HI.2.2.1 idx h2 h1
  refine ⟨h1, h2, HI.2.1, b1, b2, ?_, ?_, ?_, ?_, ?_, ?_⟩
  · intro i hi hi1 _
    exact HI.2.2.1 i hi hi1
  · intro i hi hi1 hne hEq
    exact hne (inv_key_inj h HI i idx hi1 hi h1 h2 hEq)
  · intro v hv hvk hnz
    obtain ⟨c1, c2⟩ := HI.2.2.2.1 v hv hnz
    refine ⟨c1, ?_, c2⟩
    intro hc
    rw [hc] at c2
    apply hvk
    rw [c2, Int.toNat_natCast]
  · intro j hj hj2 _ _
    exact HI.2.2.2.2 j hj hj2
  · intro hp1
    exact HI.2.2.2.2 idx h2 (by omega)
  · intro c hc hcc hp1
    have hc2 : 2 ≤ c := by omega
    have hccp : c / 2 = idx := by omega
    have ho1 := HI.2.2.2.2 c hc hc2
    rw [hccp] at ho1
    have ho2 := HI.2.2.2.2 idx h2 (by omega)
    exact W.2 (h.keys.getD (idx / 2) 0) (h.keys.getD idx 0) (h.keys.getD c 0) ho2 ho1

theorem moveUp_spec (h : Heap) (idx : Nat) (W : WeakLT h.lt)
    (H : UpInv h.lt (h.keys.getD idx 0) h.keys h.indices idx) :
    (h.moveUp idx).Inv ∧ (h.moveUp idx).lt = h.lt ∧
    (h.moveUp idx).keys.length = h.keys.length ∧
    (h.moveUp idx).indices.length = h.indices.length ∧
    (↑((h.moveUp idx).keys.drop 1) : Multiset Int) = (↑(h.keys.drop 1) : Multiset Int) := by
  have post := moveUpGo_spec h.lt W (h.keys.getD idx 0) idx h.keys h.indices idx H (Nat.le_refl idx)
  have hperm := post.perm
  rw [set_getD_self h.keys idx 0 H.idx_lt] at hperm
  refine ⟨post.inv, rfl, ?_, ?_, hperm⟩
  · show ((Heap.moveUpGo h.lt (h.keys.getD idx 0) idx h.keys h.indices idx).1.set
      (Heap.moveUpGo h.lt (h.keys.getD idx 0) idx h.keys h.indices idx).2.2
      (h.keys.getD idx 0)).length = h.keys.length
    rw [List.length_set]
    exact post.klen
  · show ((Heap.moveUpGo h.lt (h.keys.getD idx 0) idx h.keys h.indices idx).2.1.set
      (h.keys.getD idx 0).toNat
      (Heap.moveUpGo h.lt (h.keys.getD idx 0) idx h.keys h.indices idx).2.2).length =
      h.indices.length
    rw [List.length_set]
    exact post.ilen

theorem moveDown_spec (h : Heap) (idx : Nat) (W : WeakLT h.lt)
    (H : DnInv h.lt (h.keys.getD idx 0) h.keys h.indices idx) :
    (h.moveDown idx).Inv ∧ (h.moveDown idx).lt = h.lt ∧
    (h.moveDown idx).keys.length = h.keys.length ∧
    (h.moveDown idx).indices.length = h.indices.length ∧
    (↑((h.moveDown idx).keys.drop 1) : Multiset Int) = (↑(h.keys.drop 1) : Multiset Int) := by
  have post := moveDownGo_spec h.lt W (h.keys.getD idx 0) h.keys.length h.keys.length
    h.keys h.indices idx H rfl (Nat.sub_le _ _)
  have hperm := post.perm
  rw [set_getD_self h.keys idx 0 H.idx_lt] at hperm
  refine ⟨post.inv, rfl, ?_, ?_, hperm⟩
  · show ((Heap.moveDownGo h.lt (h.keys.getD idx 0) h.keys.length h.keys.length h.keys h.indices
      idx).1.set
      (Heap.moveDownGo h.lt (h.keys.getD idx 0) h.keys.length h.keys.length h.keys h.indices
        idx).2.2 (h.keys.getD idx 0)).length = h.keys.length
    rw [List.length_set]
    exact post.klen
  · show ((Heap.moveDownGo h.lt (h.keys.getD idx 0) h.keys.length h.keys.length h.keys h.indices
      idx).2.1.set (h.keys.getD idx 0).toNat
      (Heap.moveDownGo h.lt (h.keys.getD idx 0) h.keys.length h.keys.length h.keys h.indices
        idx).2.2).length = h.indices.length
    rw [List.length_set]
    exact post.ilen

/-- `move_down` on a heap already satisfying the invariant keeps it (with
the key multiset and array sizes unchanged); this covers `increased` and
each `heapify` step. -/
theorem moveDown_keep (h : Heap) (idx : Nat) (W : WeakLT h.lt) (HI : h.Inv)
    (h1 : 1 ≤ idx) (h2 : idx < h.keys.length) :
    (h.moveDown idx).Inv ∧ (h.moveDown idx).lt = h.lt ∧
    (h.moveDown idx).keys.length = h.keys.length ∧
    (h.moveDown idx).indices.length = h.indices.length ∧
    (↑((h.moveDown idx).keys.drop 1) : Multiset Int) = (↑(h.keys.drop 1) : Multiset Int) :=
  moveDown_spec h idx W (dnInv_of_inv h W HI idx h1 h2)

/-! ## Operation-level specifications -/

theorem getD_eq_getElem (l : List α) (i : Nat) (d : α) (h : i < l.length) : l.getD i d = l[i] := by
  rw [List.getD_eq_getElem?_getD, List.getElem?_eq_getElem h]
  rfl

theorem drop_one_decomp (l : List α) (d : α) (h : 2 ≤ l.length) :
    l.drop 1 = l.dropLast.drop 1 ++ [l.getD (l.length - 1) d] := by
  have hne : l ≠ [] := by intro hc; subst hc; simp at h
  conv_lhs => rw [← List.dropLast_append_getLast hne]
  rw [List.drop_append_of_le_length (by rw [List.length_dropLast]; omega)]
  congr 2
  rw [getD_eq_getElem l _ d (by omega), List.getLast_eq_getElem]

theorem contains_iff_entry (h : Heap) (k : Int) (hk0 : 0 ≤ k) (hkc : k.toNat < h.indices.length) :
    h.contains k = true ↔ h.indices.getD k.toNat 0 ≠ 0 := by
  have hlt : k < (h.indices.length : Int) := (Int.toNat_lt hk0).mp hkc
  simp [Heap.contains, hlt]

theorem entry_of_not_contains (h : Heap) (k : Int) (hk0 : 0 ≤ k)
    (hkc : k.toNat < h.indices.length) (hnc : h.contains k = false) :
    h.indices.getD k.toNat 0 = 0 := by
  by_contra hne
  rw [(contains_iff_entry h k hk0 hkc).mpr hne] at hnc
  exact absurd hnc (by simp)

theorem make_inv (s : Nat) (lt : Int → Int → Bool) : (Heap.make s lt).Inv := by
  show Heap.Inv ⟨lt, [-1], List.replicate s 0⟩
  rw [inv_mk_iff]
  refine ⟨by simp, rfl, ?_, ?_, ?_⟩
  · intro i hi h1; simp at hi; omega
  · intro v hv hnz
    exfalso
    apply hnz
    rw [List.length_replicate] at hv
    exact getD_replicate_zero s v 0 hv
  · intro i hi h2; simp at hi; omega

theorem insert_spec (h : Heap) (k : Int) (W : WeakLT h.lt) (HI : h.Inv)
    (hk0 : 0 ≤ k) (hkc : k.toNat < h.indices.length) (hnc : h.contains k = false) :
    (h.insert k).Inv ∧ (h.insert k).lt = h.lt ∧
    (h.insert k).keys.length = h.keys.length + 1 ∧
    (h.insert k).indices.length = h.indices.length ∧
    (↑((h.insert k).keys.drop 1) : Multiset Int) = k ::ₘ (↑(h.keys.drop 1) : Multiset Int) := by
  have hentry : h.indices.getD k.toNat 0 = 0 := entry_of_not_contains h k hk0 hkc hnc
  have hn1 : 1 ≤ h.keys.length := HI.1
  have hkey1 : (h.keys ++ [k]).getD h.keys.length 0 = k := getD_append_last h.keys k 0
  have H1 : UpInv h.lt ((h.keys ++ [k]).getD h.keys.length 0) (h.keys ++ [k])
      (h.indices.set k.toNat h.keys.length) h.keys.length := by
    rw [hkey1]
    refine ⟨hn1, by simp, ?_, hk0, by rw [List.length_set]; exact hkc, ?_, ?_, ?_, ?_, ?_, ?_⟩
    · rw [getD_append_left h.keys [k] 0 0 (by omega)]
      exact HI.2.1
    · intro i hi h1 hne
      rw [List.length_append, List.length_singleton] at hi
      have hilt : i < h.keys.length := by omega
      rw [getD_append_left h.keys [k] i 0 hilt, List.length_set]
      obtain ⟨b1, b2, b3⟩ := HI.2.2.1 i hilt h1
      have hvne : (h.keys.getD i 0).toNat ≠ k.toNat := by
        intro hEq
        rw [hEq, hentry] at b3
        omega
      rw [getD_set_ne h.indices k.toNat _ h.keys.length 0 (fun hc => hvne hc.symm)]
      exact ⟨b1, b2, b3⟩
    · intro i hi h1 hne
      rw [List.length_append, List.length_singleton] at hi
      have hilt : i < h.keys.length := by omega
      rw [getD_append_left h.keys [k] i 0 hilt]
      intro hEq
      have b3 := (HI.2.2.1 i hilt h1).2.2
      rw [hEq, hentry] at b3
      omega
    · intro v hv hvk hnz
      rw [List.length_set] at hv
      rw [getD_set_ne h.indices k.toNat v h.keys.length 0 (fun hc => hvk hc.symm)] at hnz ⊢
      obtain ⟨c1, c2⟩ := HI.2.2.2.1 v hv hnz
      rw [List.length_append, List.length_singleton]
      refine ⟨by omega, by omega, ?_⟩
      rw [getD_append_left h.keys [k] _ 0 c1]
      exact c2
    · intro j hj h2 hne hne2
      rw [List.length_append, List.length_singleton] at hj
      have hjlt : j < h.keys.length := by omega
      rw [getD_append_left h.keys [k] j 0 hjlt,
        getD_append_left h.keys [k] (j / 2) 0 (by omega)]
      exact HI.2.2.2.2 j hjlt h2
    · intro c hc hcc _
      rw [List.length_append, List.length_singleton] at hc
      omega
    · intro c hc hcc _
      rw [List.length_append, List.length_singleton] at hc
      omega
  have post := moveUp_spec ⟨h.lt, h.keys ++ [k], h.indices.set k.toNat h.keys.length⟩
    h.keys.length W H1
  refine ⟨post.1, rfl, ?_, ?_, ?_⟩
  · show (Heap.moveUp ⟨h.lt, h.keys ++ [k], h.indices.set k.toNat h.keys.length⟩
      h.keys.length).keys.length = h.keys.length + 1
    rw [post.2.2.1]
    simp
  · show (Heap.moveUp ⟨h.lt, h.keys ++ [k], h.indices.set k.toNat h.keys.length⟩
      h.keys.length).indices.length = h.indices.length
    rw [post.2.2.2.1, List.length_set]
  · show (↑((Heap.moveUp ⟨h.lt, h.keys ++ [k], h.indices.set k.toNat h.keys.length⟩
      h.keys.length).keys.drop 1) : Multiset Int) = k ::ₘ (↑(h.keys.drop 1) : Multiset Int)
    rw [post.2.2.2.2]
    show (↑((h.keys ++ [k]).drop 1) : Multiset Int) = k ::ₘ (↑(h.keys.drop 1) : Multiset Int)
    rw [List.drop_append_of_le_length hn1]
    rw [show ((↑(h.keys.drop 1 ++ [k]) : Multiset Int)) =
      (↑(h.keys.drop 1) : Multiset Int) + {k} from rfl]
    rw [← Multiset.singleton_add]
    exact add_comm _ _

theorem eraseMin_spec (h : Heap) (W : WeakLT h.lt) (HI : h.Inv) (hne : h.keys.length ≠ 1) :
    (h.eraseMin).1.Inv ∧ (h.eraseMin).2 = h.keys.getD 1 0 ∧ (h.eraseMin).1.lt = h.lt ∧
    (h.eraseMin).1.keys.length = h.keys.length - 1 ∧
    (h.eraseMin).1.indices.length = h.indices.length ∧
    (↑(h.keys.drop 1) : Multiset Int) =
      (h.keys.getD 1 0) ::ₘ (↑((h.eraseMin).1.keys.drop 1) : Multiset Int) := by
  have hn1 : 1 ≤ h.keys.length := HI.1
  have hn2 : 2 ≤ h.keys.length := by omega
  obtain ⟨rt_nonneg, rt_lt, rt_inv⟩ := HI.2.2.1 1 (by omega) (by omega)
  by_cases h2len : h.keys.length = 2
  · have he : h.eraseMin =
        (⟨h.lt, h.keys.dropLast, h.indices.set (h.keys.getD 1 0).toNat 0⟩, h.keys.getD 1 0) := by
      simp only [Heap.eraseMin]
      rw [if_pos h2len]
    obtain ⟨a, b, hab⟩ := List.length_eq_two.mp h2len
    have hroot : h.keys.getD 1 0 = b := by rw [hab]; rfl
    have hsent : a = -1 := by
      have := HI.2.1
      rw [hab] at this
      exact this
    rw [he]
    refine ⟨?_, rfl, rfl, ?_, ?_, ?_⟩
    · rw [inv_mk_iff]
      refine ⟨?_, ?_, ?_, ?_, ?_⟩
      · rw [hab]; simp
      · rw [hab, hsent]; rfl
      · intro i hi h1
        rw [hab] at hi
        simp at hi
        omega
      · intro v hv hnz
        rw [List.length_set] at hv
        exfalso
        by_cases hvb : v = (h.keys.getD 1 0).toNat
        · apply hnz
          rw [hvb]
          exact getD_set_self h.indices _ 0 0 rt_lt
        · rw [getD_set_ne h.indices _ v 0 0 (fun hc => hvb hc.symm)] at hnz
          obtain ⟨c1, c2⟩ := HI.2.2.2.1 v hv hnz
          have hs1 : h.indices.getD v 0 = 1 := by
            have := HI.2.2.2.1 v hv hnz
            have h0 : h.indices.getD v 0 ≠ 0 := hnz
            omega
          rw [hs1] at c2
          apply hvb
          rw [c2, Int.toNat_natCast]
      · intro i hi h2
        rw [hab] at hi
        simp at hi
        omega
    · rw [hab]; rfl
    · rw [List.length_set]
    · rw [hab]
      simp
  · have hn3 : 3 ≤ h.keys.length := by omega
    have he : h.eraseMin = (Heap.moveDown ⟨h.lt,
        (h.keys.set 1 (h.keys.getD (h.keys.length - 1) 0)).dropLast,
        (h.indices.set (h.keys.getD (h.keys.length - 1) 0).toNat 1).set
          (h.keys.getD 1 0).toNat 0⟩ 1, h.keys.getD 1 0) := by
      simp only [Heap.eraseMin]
      rw [if_neg h2len]
    obtain ⟨lt_nonneg, lt_lt, lt_inv⟩ := HI.2.2.1 (h.keys.length - 1) (by omega) (by omega)
    have hlr : h.keys.getD (h.keys.length - 1) 0 ≠ h.keys.getD 1 0 := by
      intro hEq
      have := inv_key_inj h HI (h.keys.length - 1) 1 (by omega) (by omega) (by omega) (by omega) hEq
      omega
    have hlrt : (h.keys.getD (h.keys.length - 1) 0).toNat ≠ (h.keys.getD 1 0).toNat := by
      intro hEq
      exact hlr (toNat_inj_of_nonneg lt_nonneg rt_nonneg hEq)
    have klen1 : ((h.keys.set 1 (h.keys.getD (h.keys.length - 1) 0)).dropLast).length =
        h.keys.length - 1 := by
      rw [List.length_dropLast, List.length_set]
    have ilen1 : (((h.indices.set (h.keys.getD (h.keys.length - 1) 0).toNat 1).set
        (h.keys.getD 1 0).toNat 0)).length = h.indices.length := by
      rw [List.length_set, List.length_set]
    have hK1 : ∀ i, i ≠ 1 → i < h.keys.length - 1 →
        ((h.keys.set 1 (h.keys.getD (h.keys.length - 1) 0)).dropLast).getD i 0 =
        h.keys.getD i 0 := by
      intro i hi hilt
      rw [getD_dropLast _ i 0 (by rw [List.length_set]; omega),
        getD_set_ne h.keys 1 i _ 0 (fun hc => hi hc.symm)]
    have hkey1 : ((h.keys.set 1 (h.keys.getD (h.keys.length - 1) 0)).dropLast).getD 1 0 =
        h.keys.getD (h.keys.length - 1) 0 := by
      rw [getD_dropLast _ 1 0 (by rw [List.length_set]; omega),
        getD_set_self h.keys 1 _ 0 (by omega)]
    have hI1 : (((h.indices.set (h.keys.getD (h.keys.length - 1) 0).toNat 1).set
        (h.keys.getD 1 0).toNat 0)).getD (h.keys.getD 1 0).toNat 0 = 0 :=
      getD_set_self _ _ 0 0 (by rw [List.length_set]; exact rt_lt)
    have hI1b : (((h.indices.set (h.keys.getD (h.keys.length - 1) 0).toNat 1).set
        (h.keys.getD 1 0).toNat 0)).getD (h.keys.getD (h.keys.length - 1) 0).toNat 0 = 1 := by
      rw [getD_set_ne _ _ _ 0 0 (fun hc => hlrt hc.symm)]
      exact getD_set_self _ _ 1 0 lt_lt
    have hI1c : ∀ v, v ≠ (h.keys.getD 1 0).toNat →
        v ≠ (h.keys.getD (h.keys.length - 1) 0).toNat →
        (((h.indices.set (h.keys.getD (h.keys.length - 1) 0).toNat 1).set
          (h.keys.getD 1 0).toNat 0)).getD v 0 = h.indices.getD v 0 := by
      intro v hv1 hv2
      rw [getD_set_ne _ _ _ 0 0 (fun hc => hv1 hc.symm),
        getD_set_ne _ _ _ 1 0 (fun hc => hv2 hc.symm)]
    have H1 : DnInv h.lt
        (((h.keys.set 1 (h.keys.getD (h.keys.length - 1) 0)).dropLast).getD 1 0)
        ((h.keys.set 1 (h.keys.getD (h.keys.length - 1) 0)).dropLast)
        ((h.indices.set (h.keys.getD (h.keys.length - 1) 0).toNat 1).set
          (h.keys.getD 1 0).toNat 0) 1 := by
      rw [hkey1]
      refine ⟨by omega, by rw [klen1]; omega, ?_, lt_nonneg, by rw [ilen1]; exact lt_lt,
        ?_, ?_, ?_, ?_, ?_, ?_⟩
      · rw [hK1 0 (by omega) (by omega)]
        exact HI.2.1
      · intro i hi h1 hi1
        rw [klen1] at hi
        rw [hK1 i hi1 hi, ilen1]
        obtain ⟨b1, b2, b3⟩ := HI.2.2.1 i (by omega) h1
        have hir : h.keys.getD i 0 ≠ h.keys.getD 1 0 := by
          intro hEq
          exact hi1 (inv_key_inj h HI i 1 h1 (by omega) (by omega) (by omega) hEq)
        have hil : h.keys.getD i 0 ≠ h.keys.getD (h.keys.length - 1) 0 := by
          intro hEq
          have := inv_key_inj h HI i (h.keys.length - 1) h1 (by omega) (by omega) (by omega) hEq
          omega
        rw [hI1c _ (fun hc => hir (toNat_inj_of_nonneg b1 rt_nonneg hc))
          (fun hc => hil (toNat_inj_of_nonneg b1 lt_nonneg hc))]
        exact ⟨b1, b2, b3⟩
      · intro i hi h1 hi1
        rw [klen1] at hi
        rw [hK1 i hi1 hi]
        intro hEq
        have := inv_key_inj h HI i (h.keys.length - 1) h1 (by omega) (by omega) (by omega) hEq
        omega
      · intro v hv hvl hnz
        rw [ilen1] at hv
        rw [klen1]
        by_cases hvr : v = (h.keys.getD 1 0).toNat
        · exfalso
          apply hnz
          rw [hvr]
          exact hI1
        · rw [hI1c v hvr hvl] at hnz ⊢
          obtain ⟨c1, c2⟩ := HI.2.2.2.1 v hv hnz
          have hs1 : h.indices.getD v 0 ≠ 1 := by
            intro hc
            rw [hc] at c2
            apply hvr
            rw [c2, Int.toNat_natCast]
          have hsl : h.indices.getD v 0 ≠ h.keys.length - 1 := by
            intro hc
            rw [hc] at c2
            apply hvl
            rw [c2, Int.toNat_natCast]
          refine ⟨by omega, hs1, ?_⟩
          rw [hK1 _ hs1 (by omega)]
          exact c2
      · intro j hj h2 hj1 hjp
        rw [klen1] at hj
        rw [hK1 j hj1 hj, hK1 (j / 2) hjp (by omega)]
        exact HI.2.2.2.2 j (by omega) h2
      · intro hc
        exact absurd hc (by omega)
      · intro c hc hcc hc1
        exact absurd hc1 (by omega)
    have post := moveDown_spec ⟨h.lt,
      (h.keys.set 1 (h.keys.getD (h.keys.length - 1) 0)).dropLast,
      (h.indices.set (h.keys.getD (h.keys.length - 1) 0).toNat 1).set
        (h.keys.getD 1 0).toNat 0⟩ 1 W H1
    rw [he]
    refine ⟨post.1, rfl, rfl, ?_, ?_, ?_⟩
    · show (Heap.moveDown _ 1).keys.length = h.keys.length - 1
      rw [post.2.2.1]
      exact klen1
    · show (Heap.moveDown _ 1).indices.length = h.indices.length
      rw [post.2.2.2.1]
      exact ilen1
    · show (↑(h.keys.drop 1) : Multiset Int) = (h.keys.getD 1 0) ::ₘ
        (↑((Heap.moveDown ⟨h.lt,
          (h.keys.set 1 (h.keys.getD (h.keys.length - 1) 0)).dropLast,
          (h.indices.set (h.keys.getD (h.keys.length - 1) 0).toNat 1).set
            (h.keys.getD 1 0).toNat 0⟩ 1).keys.drop 1) : Multiset Int)
      rw [post.2.2.2.2]
      have e1 := multiset_set_drop1 h.keys 1 (h.keys.getD (h.keys.length - 1) 0) 0
        (by omega) (by omega)
      have e2 : (h.keys.set 1 (h.keys.getD (h.keys.length - 1) 0)).drop 1 =
          ((h.keys.set 1 (h.keys.getD (h.keys.length - 1) 0)).dropLast).drop 1 ++
          [h.keys.getD (h.keys.length - 1) 0] := by
        have := drop_one_decomp (h.keys.set 1 (h.keys.getD (h.keys.length - 1) 0)) 0
          (by rw [List.length_set]; omega)
        rw [this]
        congr 2
        rw [List.length_set]
        exact getD_set_ne h.keys 1 _ _ 0 (by omega)
      rw [e2] at e1
      rw [show (↑(((h.keys.set 1 (h.keys.getD (h.keys.length - 1) 0)).dropLast).drop 1 ++
        [h.keys.getD (h.keys.length - 1) 0]) : Multiset Int) =
        (↑(((h.keys.set 1 (h.keys.getD (h.keys.length - 1) 0)).dropLast).drop 1) : Multiset Int)
        + {h.keys.getD (h.keys.length - 1) 0} from rfl] at e1
      have e3 : (↑(((h.keys.set 1 (h.keys.getD (h.keys.length - 1) 0)).dropLast).drop 1) :
          Multiset Int) + {h.keys.getD 1 0} = ↑(h.keys.drop 1) := by
        have := e1
        rw [add_right_comm] at this
        exact add_right_cancel this
      rw [← e3, ← Multiset.singleton_add]
      exact (add_comm _ _)

theorem contains_decode (h : Heap) (k : Int) (hk0 : 0 ≤ k) (hc : h.contains k = true) :
    k.toNat < h.indices.length ∧ h.indices.getD k.toNat 0 ≠ 0 := by
  simp only [Heap.contains, Bool.and_eq_true, decide_eq_true_eq] at hc
  exact ⟨(Int.toNat_lt hk0).mpr hc.1, hc.2⟩

theorem ms_removed (l : List Int) (e : Nat) (he1 : 1 ≤ e) (he2 : e < l.length - 1) :
    (↑(l.drop 1) : Multiset Int) =
      (l.getD e 0) ::ₘ (↑(((l.set e (l.getD (l.length - 1) 0)).dropLast).drop 1) : Multiset Int) := by
  have hlen : 3 ≤ l.length := by omega
  have e1 := multiset_set_drop1 l e (l.getD (l.length - 1) 0) 0 he1 (by omega)
  have e2 : (l.set e (l.getD (l.length - 1) 0)).drop 1 =
      ((l.set e (l.getD (l.length - 1) 0)).dropLast).drop 1 ++ [l.getD (l.length - 1) 0] := by
    have := drop_one_decomp (l.set e (l.getD (l.length - 1) 0)) 0 (by rw [List.length_set]; omega)
    rw [this]
    congr 2
    rw [List.length_set]
    exact getD_set_ne l e _ _ 0 (by omega)
  rw [e2] at e1
  rw [show (↑(((l.set e (l.getD (l.length - 1) 0)).dropLast).drop 1 ++
    [l.getD (l.length - 1) 0]) : Multiset Int) =
    (↑(((l.set e (l.getD (l.length - 1) 0)).dropLast).drop 1) : Multiset Int)
    + {l.getD (l.length - 1) 0} from rfl] at e1
  have e3 : (↑(((l.set e (l.getD (l.length - 1) 0)).dropLast).drop 1) : Multiset Int)
      + {l.getD e 0} = ↑(l.drop 1) := by
    have h4 := e1
    rw [add_right_comm] at h4
    exact add_right_cancel h4
  rw [← e3, ← Multiset.singleton_add]
  exact (add_comm _ _)

theorem erase_spec (h : Heap) (k : Int) (W : WeakLT h.lt) (HI : h.Inv)
    (hk0 : 0 ≤ k) (hc : h.contains k = true) :
    (h.erase k).Inv ∧ (h.erase k).lt = h.lt ∧
    (h.erase k).keys.length = h.keys.length - 1 ∧
    (h.erase k).indices.length = h.indices.length ∧
    (↑(h.keys.drop 1) : Multiset Int) = k ::ₘ (↑((h.erase k).keys.drop 1) : Multiset Int) := by
  obtain ⟨hkc, hnz⟩ := contains_decode h k hk0 hc
  obtain ⟨he_lt, he_key⟩ := HI.2.2.2.1 k.toNat hkc hnz
  rw [Int.toNat_of_nonneg hk0] at he_key
  have he1 : 1 ≤ h.indices.getD k.toNat 0 := Nat.one_le_iff_ne_zero.mpr hnz
  have hn1 : 1 ≤ h.keys.length := HI.1
  by_cases hA : h.indices.getD k.toNat 0 = h.keys.length - 1
  · have he : h.erase k = ⟨h.lt, h.keys.dropLast, h.indices.set k.toNat 0⟩ := by
      simp only [Heap.erase]
      rw [if_pos hA]
    have hn2 : 2 ≤ h.keys.length := by omega
    rw [he]
    refine ⟨?_, rfl, ?_, ?_, ?_⟩
    · rw [inv_mk_iff]
      refine ⟨by rw [List.length_dropLast]; omega, ?_, ?_, ?_, ?_⟩
      · rw [getD_dropLast h.keys 0 0 (by omega)]
        exact HI.2.1
      · intro i hi h1
        rw [List.length_dropLast] at hi
        rw [getD_dropLast h.keys i 0 hi, List.length_set]
        obtain ⟨b1, b2, b3⟩ := HI.2.2.1 i (by omega) h1
        have hik : h.keys.getD i 0 ≠ k := by
          intro hEq
          rw [← he_key] at hEq
          have := inv_key_inj h HI i (h.indices.getD k.toNat 0) h1 (by omega) he1 he_lt hEq
          omega
        have hikt : (h.keys.getD i 0).toNat ≠ k.toNat := by
          intro hEq
          exact hik (toNat_inj_of_nonneg b1 hk0 hEq)
        rw [getD_set_ne h.indices k.toNat _ 0 0 (fun hc2 => hikt hc2.symm)]
        exact ⟨b1, b2, b3⟩
      · intro v hv hnz2
        rw [List.length_set] at hv
        by_cases hvk : v = k.toNat
        · exfalso
          apply hnz2
          rw [hvk]
          exact getD_set_self h.indices k.toNat 0 0 hkc
        · rw [getD_set_ne h.indices k.toNat v 0 0 (fun hc2 => hvk hc2.symm)] at hnz2 ⊢
          obtain ⟨c1, c2⟩ := HI.2.2.2.1 v hv hnz2
          have hsv : h.indices.getD v 0 ≠ h.indices.getD k.toNat 0 := by
            intro hc2
            rw [hc2, he_key] at c2
            apply hvk
            rw [c2, Int.toNat_natCast]
          rw [List.length_dropLast]
          refine ⟨by omega, ?_⟩
          rw [getD_dropLast h.keys _ 0 (by omega)]
          exact c2
      · intro j hj h2
        rw [List.length_dropLast] at hj
        rw [getD_dropLast h.keys j 0 hj, getD_dropLast h.keys (j / 2) 0 (by omega)]
        exact HI.2.2.2.2 j (by omega) h2
    · rw [List.length_dropLast]
    · rw [List.length_set]
    · show (↑(h.keys.drop 1) : Multiset Int) = k ::ₘ (↑((h.keys.dropLast).drop 1) : Multiset Int)
      rw [drop_one_decomp h.keys 0 hn2]
      rw [show (↑((h.keys.dropLast).drop 1 ++ [h.keys.getD (h.keys.length - 1) 0]) : Multiset Int) =
        (↑((h.keys.dropLast).drop 1) : Multiset Int) + {h.keys.getD (h.keys.length - 1) 0}
        from rfl]
      rw [← hA, he_key, ← Multiset.singleton_add]
      exact add_comm _ _
  · have he2 : h.indices.getD k.toNat 0 < h.keys.length - 1 := by omega
    have hn3 : 3 ≤ h.keys.length := by omega
    obtain ⟨lt_nonneg, lt_lt, lt_inv⟩ := HI.2.2.1 (h.keys.length - 1) (by omega) (by omega)
    have hlk : h.keys.getD (h.keys.length - 1) 0 ≠ k := by
      intro hEq
      rw [← he_key] at hEq
      have := inv_key_inj h HI (h.keys.length - 1) (h.indices.getD k.toNat 0)
        (by omega) (by omega) he1 he_lt hEq
      omega
    have hlkt : (h.keys.getD (h.keys.length - 1) 0).toNat ≠ k.toNat := by
      intro hEq
      exact hlk (toNat_inj_of_nonneg lt_nonneg hk0 hEq)
    have klen1 : ((h.keys.set (h.indices.getD k.toNat 0)
        (h.keys.getD (h.keys.length - 1) 0)).dropLast).length = h.keys.length - 1 := by
      rw [List.length_dropLast, List.length_set]
    have ilen1 : ((h.indices.set (h.keys.getD (h.keys.length - 1) 0).toNat
        (h.indices.getD k.toNat 0)).set k.toNat 0).length = h.indices.length := by
      rw [List.length_set, List.length_set]
    have hK1 : ∀ i, i ≠ h.indices.getD k.toNat 0 → i < h.keys.length - 1 →
        ((h.keys.set (h.indices.getD k.toNat 0)
          (h.keys.getD (h.keys.length - 1) 0)).dropLast).getD i 0 = h.keys.getD i 0 := by
      intro i hi hilt
      rw [getD_dropLast _ i 0 (by rw [List.length_set]; omega),
        getD_set_ne h.keys _ i _ 0 (fun hc2 => hi hc2.symm)]
    have hkey1 : ((h.keys.set (h.indices.getD k.toNat 0)
        (h.keys.getD (h.keys.length - 1) 0)).dropLast).getD (h.indices.getD k.toNat 0) 0 =
        h.keys.getD (h.keys.length - 1) 0 := by
      rw [getD_dropLast _ _ 0 (by rw [List.length_set]; omega),
        getD_set_self h.keys _ _ 0 (by omega)]
    have hI1 : ((h.indices.set (h.keys.getD (h.keys.length - 1) 0).toNat
        (h.indices.getD k.toNat 0)).set k.toNat 0).getD k.toNat 0 = 0 :=
      getD_set_self _ k.toNat 0 0 (by rw [List.length_set]; exact hkc)
    have hI1b : ((h.indices.set (h.keys.getD (h.keys.length - 1) 0).toNat
        (h.indices.getD k.toNat 0)).set k.toNat 0).getD
        (h.keys.getD (h.keys.length - 1) 0).toNat 0 = h.indices.getD k.toNat 0 := by
      rw [getD_set_ne _ k.toNat _ 0 0 (fun hc2 => hlkt hc2.symm)]
      exact getD_set_self _ _ _ 0 lt_lt
    have hI1c : ∀ v, v ≠ k.toNat → v ≠ (h.keys.getD (h.keys.length - 1) 0).toNat →
        ((h.indices.set (h.keys.getD (h.keys.length - 1) 0).toNat
          (h.indices.getD k.toNat 0)).set k.toNat 0).getD v 0 = h.indices.getD v 0 := by
      intro v hv1 hv2
      rw [getD_set_ne _ k.toNat v 0 0 (fun hc2 => hv1 hc2.symm),
        getD_set_ne _ _ v _ 0 (fun hc2 => hv2 hc2.symm)]
    have hInv1 : ∀ i, i < h.keys.length - 1 → 1 ≤ i → i ≠ h.indices.getD k.toNat 0 →
        0 ≤ ((h.keys.set (h.indices.getD k.toNat 0)
          (h.keys.getD (h.keys.length - 1) 0)).dropLast).getD i 0 ∧
        (((h.keys.set (h.indices.getD k.toNat 0)
          (h.keys.getD (h.keys.length - 1) 0)).dropLast).getD i 0).toNat <
          ((h.indices.set (h.keys.getD (h.keys.length - 1) 0).toNat
            (h.indices.getD k.toNat 0)).set k.toNat 0).length ∧
        ((h.indices.set (h.keys.getD (h.keys.length - 1) 0).toNat
          (h.indices.getD k.toNat 0)).set k.toNat 0).getD
          ((((h.keys.set (h.indices.getD k.toNat 0)
            (h.keys.getD (h.keys.length - 1) 0)).dropLast).getD i 0)).toNat 0 = i := by
      intro i hi h1 hie
      rw [hK1 i hie hi, ilen1]
      obtain ⟨b1, b2, b3⟩ := HI.2.2.1 i (by omega) h1
      have hik : h.keys.getD i 0 ≠ k := by
        intro hEq
        rw [← he_key] at hEq
        exact hie (inv_key_inj h HI i (h.indices.getD k.toNat 0) h1 (by omega) he1 he_lt hEq)
      have hil : h.keys.getD i 0 ≠ h.keys.getD (h.keys.length - 1) 0 := by
        intro hEq
        have := inv_key_inj h HI i (h.keys.length - 1) h1 (by omega) (by omega) (by omega) hEq
        omega
      rw [hI1c _ (fun hc2 => hik (toNat_inj_of_nonneg b1 hk0 hc2))
        (fun hc2 => hil (toNat_inj_of_nonneg b1 lt_nonneg hc2))]
      exact ⟨b1, b2, b3⟩
    have hFresh1 : ∀ i, i < h.keys.length - 1 → 1 ≤ i → i ≠ h.indices.getD k.toNat 0 →
        ((h.keys.set (h.indices.getD k.toNat 0)
          (h.keys.getD (h.keys.length - 1) 0)).dropLast).getD i 0 ≠
          h.keys.getD (h.keys.length - 1) 0 := by
      intro i hi h1 hie
      rw [hK1 i hie hi]
      intro hEq
      have := inv_key_inj h HI i (h.keys.length - 1) h1 (by omega) (by omega) (by omega) hEq
      omega
    have hRev1 : ∀ v, v < ((h.indices.set (h.keys.getD (h.keys.length - 1) 0).toNat
          (h.indices.getD k.toNat 0)).set k.toNat 0).length →
        v ≠ (h.keys.getD (h.keys.length - 1) 0).toNat →
        ((h.indices.set (h.keys.getD (h.keys.length - 1) 0).toNat
          (h.indices.getD k.toNat 0)).set k.toNat 0).getD v 0 ≠ 0 →
        ((h.indices.set (h.keys.getD (h.keys.length - 1) 0).toNat
          (h.indices.getD k.toNat 0)).set k.toNat 0).getD v 0 <
          ((h.keys.set (h.indices.getD k.toNat 0)
            (h.keys.getD (h.keys.length - 1) 0)).dropLast).length ∧
        ((h.indices.set (h.keys.getD (h.keys.length - 1) 0).toNat
          (h.indices.getD k.toNat 0)).set k.toNat 0).getD v 0 ≠ h.indices.getD k.toNat 0 ∧
        ((h.keys.set (h.indices.getD k.toNat 0)
          (h.keys.getD (h.keys.length - 1) 0)).dropLast).getD
          (((h.indices.set (h.keys.getD (h.keys.length - 1) 0).toNat
            (h.indices.getD k.toNat 0)).set k.toNat 0).getD v 0) 0 = (v : Int) := by
      intro v hv hvl hnz2
      rw [ilen1] at hv
      by_cases hvk : v = k.toNat
      · exfalso
        apply hnz2
        rw [hvk]
        exact hI1
      · rw [hI1c v hvk hvl] at hnz2 ⊢
        obtain ⟨c1, c2⟩ := HI.2.2.2.1 v hv hnz2
        have hse : h.indices.getD v 0 ≠ h.indices.getD k.toNat 0 := by
          intro hc2
          rw [hc2, he_key] at c2
          apply hvk
          rw [c2, Int.toNat_natCast]
        have hsl : h.indices.getD v 0 ≠ h.keys.length - 1 := by
          intro hc2
          rw [hc2] at c2
          apply hvl
          rw [c2, Int.toNat_natCast]
        rw [klen1]
        refine ⟨by omega, hse, ?_⟩
        rw [hK1 _ hse (by omega)]
        exact c2
    have hOrd1 : ∀ j, j < h.keys.length - 1 → 2 ≤ j → j ≠ h.indices.getD k.toNat 0 →
        j / 2 ≠ h.indices.getD k.toNat 0 →
        h.lt (((h.keys.set (h.indices.getD k.toNat 0)
            (h.keys.getD (h.keys.length - 1) 0)).dropLast).getD j 0)
          (((h.keys.set (h.indices.getD k.toNat 0)
            (h.keys.getD (h.keys.length - 1) 0)).dropLast).getD (j / 2) 0) = false := by
      intro j hj h2 hje hjp
      rw [hK1 j hje hj, hK1 (j / 2) hjp (by omega)]
      exact HI.2.2.2.2 j (by omega) h2
    have hChild1 : ∀ c, c < h.keys.length - 1 →
        (c = 2 * h.indices.getD k.toNat 0 ∨ c = 2 * h.indices.getD k.toNat 0 + 1) →
        1 ≤ h.indices.getD k.toNat 0 / 2 →
        h.lt (((h.keys.set (h.indices.getD k.toNat 0)
            (h.keys.getD (h.keys.length - 1) 0)).dropLast).getD c 0)
          (((h.keys.set (h.indices.getD k.toNat 0)
            (h.keys.getD (h.keys.length - 1) 0)).dropLast).getD
            (h.indices.getD k.toNat 0 / 2) 0) = false := by
      intro c hc hcc hep
      have hce : c ≠ h.indices.getD k.toNat 0 := by omega
      have hpe : h.indices.getD k.toNat 0 / 2 ≠ h.indices.getD k.toNat 0 := by omega
      rw [hK1 c hce hc, hK1 _ hpe (by omega)]
      have hc2 : 2 ≤ c := by omega
      have hccp : c / 2 = h.indices.getD k.toNat 0 := by omega
      have ho1 := HI.2.2.2.2 c (by omega) hc2
      rw [hccp, he_key] at ho1
      have ho2 := HI.2.2.2.2 (h.indices.getD k.toNat 0) (by omega) (by omega)
      rw [he_key] at ho2
      exact W.2 _ k _ ho2 ho1
    have hsent1 : ((h.keys.set (h.indices.getD k.toNat 0)
        (h.keys.getD (h.keys.length - 1) 0)).dropLast).getD 0 0 = -1 := by
      rw [hK1 0 (by omega) (by omega)]
      exact HI.2.1
    have hmsfinal := ms_removed h.keys (h.indices.getD k.toNat 0) he1 he2
    rw [he_key] at hmsfinal
    by_cases hB : ¬ Heap.parent (h.indices.getD k.toNat 0) = 0 ∧
        h.lt (h.keys.getD (h.keys.length - 1) 0)
          (((h.keys.set (h.indices.getD k.toNat 0)
            (h.keys.getD (h.keys.length - 1) 0)).dropLast).getD
            (Heap.parent (h.indices.getD k.toNat 0)) 0) = true
    · have he : h.erase k = Heap.moveUp ⟨h.lt,
          (h.keys.set (h.indices.getD k.toNat 0) (h.keys.getD (h.keys.length - 1) 0)).dropLast,
          (h.indices.set (h.keys.getD (h.keys.length - 1) 0).toNat
            (h.indices.getD k.toNat 0)).set k.toNat 0⟩ (h.indices.getD k.toNat 0) := by
        simp only [Heap.erase]
        rw [if_neg hA, if_pos hB]
      simp only [Heap.parent] at hB
      have H1 : UpInv h.lt
          (((h.keys.set (h.indices.getD k.toNat 0)
            (h.keys.getD (h.keys.length - 1) 0)).dropLast).getD (h.indices.getD k.toNat 0) 0)
          ((h.keys.set (h.indices.getD k.toNat 0)
            (h.keys.getD (h.keys.length - 1) 0)).dropLast)
          ((h.indices.set (h.keys.getD (h.keys.length - 1) 0).toNat
            (h.indices.getD k.toNat 0)).set k.toNat 0) (h.indices.getD k.toNat 0) := by
        rw [hkey1]
        refine ⟨he1, by rw [klen1]; omega, hsent1, lt_nonneg, by rw [ilen1]; exact lt_lt,
          ?_, ?_, ?_, ?_, ?_, ?_⟩
        · intro i hi h1 hie
          rw [klen1] at hi
          exact hInv1 i hi h1 hie
        · intro i hi h1 hie
          rw [klen1] at hi
          exact hFresh1 i hi h1 hie
        · intro v hv hvl hnz2
          exact hRev1 v hv hvl hnz2
        · intro j hj h2 hje hjp
          rw [klen1] at hj
          exact hOrd1 j hj h2 hje hjp
        · intro c hc hcc hant
          exfalso
          rcases hant with hz | hfalse
          · exact hB.1 hz
          · rw [hB.2] at hfalse
            exact absurd hfalse (by simp)
        · intro c hc hcc hep
          rw [klen1] at hc
          exact hChild1 c hc hcc hep
      have post := moveUp_spec ⟨h.lt,
        (h.keys.set (h.indices.getD k.toNat 0) (h.keys.getD (h.keys.length - 1) 0)).dropLast,
        (h.indices.set (h.keys.getD (h.keys.length - 1) 0).toNat
          (h.indices.getD k.toNat 0)).set k.toNat 0⟩ (h.indices.getD k.toNat 0) W H1
      rw [he]
      refine ⟨post.1, rfl, ?_, ?_, ?_⟩
      · rw [post.2.2.1]
        exact klen1
      · rw [post.2.2.2.1]
        exact ilen1
      · rw [post.2.2.2.2]
        exact hmsfinal
    · have he : h.erase k = Heap.moveDown ⟨h.lt,
          (h.keys.set (h.indices.getD k.toNat 0) (h.keys.getD (h.keys.length - 1) 0)).dropLast,
          (h.indices.set (h.keys.getD (h.keys.length - 1) 0).toNat
            (h.indices.getD k.toNat 0)).set k.toNat 0⟩ (h.indices.getD k.toNat 0) := by
        simp only [Heap.erase]
        rw [if_neg hA, if_neg hB]
      simp only [Heap.parent] at hB
      push_neg at hB
      have H1 : DnInv h.lt
          (((h.keys.set (h.indices.getD k.toNat 0)
            (h.keys.getD (h.keys.length - 1) 0)).dropLast).getD (h.indices.getD k.toNat 0) 0)
          ((h.keys.set (h.indices.getD k.toNat 0)
            (h.keys.getD (h.keys.length - 1) 0)).dropLast)
          ((h.indices.set (h.keys.getD (h.keys.length - 1) 0).toNat
            (h.indices.getD k.toNat 0)).set k.toNat 0) (h.indices.getD k.toNat 0) := by
        rw [hkey1]
        refine ⟨he1, by rw [klen1]; omega, hsent1, lt_nonneg, by rw [ilen1]; exact lt_lt,
          ?_, ?_, ?_, ?_, ?_, ?_⟩
        · intro i hi h1 hie
          rw [klen1] at hi
          exact hInv1 i hi h1 hie
        · intro i hi h1 hie
          rw [klen1] at hi
          exact hFresh1 i hi h1 hie
        · intro v hv hvl hnz2
          exact hRev1 v hv hvl hnz2
        · intro j hj h2 hje hjp
          rw [klen1] at hj
          exact hOrd1 j hj h2 hje hjp
        · intro hep
          have hz : ¬ h.indices.getD k.toNat 0 / 2 = 0 := by omega
          have := hB hz
          simpa using this
        · intro c hc hcc hep
          rw [klen1] at hc
          exact hChild1 c hc hcc hep
      have post := moveDown_spec ⟨h.lt,
        (h.keys.set (h.indices.getD k.toNat 0) (h.keys.getD (h.keys.length - 1) 0)).dropLast,
        (h.indices.set (h.keys.getD (h.keys.length - 1) 0).toNat
          (h.indices.getD k.toNat 0)).set k.toNat 0⟩ (h.indices.getD k.toNat 0) W H1
      rw [he]
      refine ⟨post.1, rfl, ?_, ?_, ?_⟩
      · rw [post.2.2.1]
        exact klen1
      · rw [post.2.2.2.1]
        exact ilen1
      · rw [post.2.2.2.2]
        exact hmsfinal

/-- When the loop of `move_up` stops at its very first comparison, the two
final writes store back exactly what the arrays already hold, so the whole
sift is the identity. -/
theorem moveUp_noop (h : Heap) (idx : Nat) (h2 : idx < h.keys.length)
    (hstop : Heap.parent idx = 0 ∨
      h.lt (h.keys.getD idx 0) (h.keys.getD (Heap.parent idx) 0) = false)
    (hentry : h.indices.getD (h.keys.getD idx 0).toNat 0 = idx)
    (hrange : (h.keys.getD idx 0).toNat < h.indices.length) :
    h.moveUp idx = h := by
  have hgo : Heap.moveUpGo h.lt (h.keys.getD idx 0) idx h.keys h.indices idx =
      (h.keys, h.indices, idx) := by
    cases idx with
    | zero => rfl
    | succ n =>
      rw [show Heap.moveUpGo h.lt (h.keys.getD (n + 1) 0) (n + 1) h.keys h.indices (n + 1) =
        (if Heap.parent (n + 1) = 0 ∨
            h.lt (h.keys.getD (n + 1) 0) (h.keys.getD (Heap.parent (n + 1)) 0) = false
         then (h.keys, h.indices, n + 1)
         else Heap.moveUpGo h.lt (h.keys.getD (n + 1) 0) n
           (h.keys.set (n + 1) (h.keys.getD (Heap.parent (n + 1)) 0))
           (h.indices.set (h.keys.getD (Heap.parent (n + 1)) 0).toNat (n + 1))
           (Heap.parent (n + 1))) from rfl]
      rw [if_pos hstop]
  show (⟨h.lt, (Heap.moveUpGo h.lt (h.keys.getD idx 0) idx h.keys h.indices idx).1.set
    (Heap.moveUpGo h.lt (h.keys.getD idx 0) idx h.keys h.indices idx).2.2 (h.keys.getD idx 0),
    (Heap.moveUpGo h.lt (h.keys.getD idx 0) idx h.keys h.indices idx).2.1.set
      (h.keys.getD idx 0).toNat
      (Heap.moveUpGo h.lt (h.keys.getD idx 0) idx h.keys h.indices idx).2.2⟩ : Heap) = h
  rw [hgo]
  show (⟨h.lt, h.keys.set idx (h.keys.getD idx 0),
    h.indices.set (h.keys.getD idx 0).toNat idx⟩ : Heap) = h
  set K := h.keys.getD idx 0 with hK
  have h5 : h.indices.set K.toNat idx = h.indices := by
    rw [← hentry]
    exact set_getD_self h.indices K.toNat 0 hrange
  rw [set_getD_self h.keys idx 0 h2, h5]

/-- `decreased(key)` on a heap that already satisfies the invariant (the
comparator is fixed in this model) changes nothing at all. -/
theorem decreased_noop (h : Heap) (k : Int) (HI : h.Inv) (hk0 : 0 ≤ k)
    (hc : h.contains k = true) : h.decreased k = h := by
  obtain ⟨hkc, hnz⟩ := contains_decode h k hk0 hc
  obtain ⟨he_lt, he_key⟩ := HI.2.2.2.1 k.toNat hkc hnz
  rw [Int.toNat_of_nonneg hk0] at he_key
  have he1 : 1 ≤ h.indices.getD k.toNat 0 := Nat.one_le_iff_ne_zero.mpr hnz
  apply moveUp_noop h (h.indices.getD k.toNat 0) he_lt
  · by_cases hone : h.indices.getD k.toNat 0 = 1
    · left
      rw [hone]
      rfl
    · right
      exact HI.2.2.2.2 (h.indices.getD k.toNat 0) he_lt (by omega)
  · rw [he_key]
  · rw [he_key]
    exact hkc

theorem increased_spec (h : Heap) (k : Int) (W : WeakLT h.lt) (HI : h.Inv) (hk0 : 0 ≤ k)
    (hc : h.contains k = true) :
    (h.increased k).Inv ∧ (h.increased k).lt = h.lt ∧
    (h.increased k).keys.length = h.keys.length ∧
    (h.increased k).indices.length = h.indices.length ∧
    (↑((h.increased k).keys.drop 1) : Multiset Int) = (↑(h.keys.drop 1) : Multiset Int) := by
  obtain ⟨hkc, hnz⟩ := contains_decode h k hk0 hc
  obtain ⟨he_lt, _⟩ := HI.2.2.2.1 k.toNat hkc hnz
  exact moveDown_keep h (h.indices.getD k.toNat 0) W HI (Nat.one_le_iff_ne_zero.mpr hnz) he_lt

theorem heapifyGo_spec : ∀ (i : Nat) (h : Heap), WeakLT h.lt → h.Inv → i < h.keys.length →
    (Heap.heapifyGo h i).Inv ∧ (Heap.heapifyGo h i).lt = h.lt ∧
    (Heap.heapifyGo h i).keys.length = h.keys.length ∧
    (Heap.heapifyGo h i).indices.length = h.indices.length ∧
    (↑((Heap.heapifyGo h i).keys.drop 1) : Multiset Int) = (↑(h.keys.drop 1) : Multiset Int) := by
  intro i
  induction i with
  | zero =>
    intro h W HI _
    exact ⟨HI, rfl, rfl, rfl, rfl⟩
  | succ n ih =>
    intro h W HI hi
    have hd := moveDown_keep h (n + 1) W HI (by omega) hi
    have hrec := ih (h.moveDown (n + 1)) (by rw [hd.2.1]; exact W) hd.1
      (by rw [hd.2.2.1]; omega)
    refine ⟨hrec.1, ?_, ?_, ?_, ?_⟩
    · show ((h.moveDown (n + 1)).heapifyGo n).lt = h.lt
      rw [hrec.2.1, hd.2.1]
    · show ((h.moveDown (n + 1)).heapifyGo n).keys.length = h.keys.length
      rw [hrec.2.2.1, hd.2.2.1]
    · show ((h.moveDown (n + 1)).heapifyGo n).indices.length = h.indices.length
      rw [hrec.2.2.2.1, hd.2.2.2.1]
    · show (↑(((h.moveDown (n + 1)).heapifyGo n).keys.drop 1) : Multiset Int) =
        (↑(h.keys.drop 1) : Multiset Int)
      rw [hrec.2.2.2.2, hd.2.2.2.2]

theorem heapify_spec (h : Heap) (W : WeakLT h.lt) (HI : h.Inv) :
    (h.heapify).Inv ∧ (h.heapify).lt = h.lt ∧
    (h.heapify).keys.length = h.keys.length ∧
    (h.heapify).indices.length = h.indices.length ∧
    (↑((h.heapify).keys.drop 1) : Multiset Int) = (↑(h.keys.drop 1) : Multiset Int) := by
  have hn1 : 1 ≤ h.keys.length := HI.1
  exact heapifyGo_spec ((h.keys.length - 1) / 2) h W HI (by omega)

theorem reset_spec (h : Heap) (HI : h.Inv) :
    (h.reset).Inv ∧ (h.reset).lt = h.lt ∧ (h.reset).keys.length = 1 ∧
    (h.reset).indices.length = h.indices.length ∧
    ∀ v, (h.reset).indices.getD v 0 = 0 := by
  by_cases hemp : h.keys.length = 1
  · have he : h.reset = h := by
      simp only [Heap.reset]
      rw [if_pos hemp]
    rw [he]
    refine ⟨HI, rfl, hemp, rfl, ?_⟩
    intro v
    by_cases hv : v < h.indices.length
    · by_contra hne
      obtain ⟨c1, _⟩ := HI.2.2.2.1 v hv hne
      omega
    · exact getD_oob h.indices v 0 (by omega)
  · have he : h.reset = ⟨h.lt, [-1], List.replicate h.indices.length 0⟩ := by
      simp only [Heap.reset]
      rw [if_neg hemp]
    rw [he]
    refine ⟨?_, rfl, rfl, by simp, ?_⟩
    · rw [inv_mk_iff]
      refine ⟨by simp, rfl, ?_, ?_, ?_⟩
      · intro i hi h1; simp at hi; omega
      · intro v hv hnz
        exfalso
        apply hnz
        rw [List.length_replicate] at hv
        exact getD_replicate_zero _ v 0 hv
      · intro i hi h2; simp at hi; omega
    · intro v
      by_cases hv : v < h.indices.length
      · exact getD_replicate_zero _ v 0 hv
      · exact getD_oob _ v 0 (by simp; omega)

theorem setBounds_spec (h : Heap) (s : Nat) (HI : h.Inv) (hs : h.indices.length ≤ s) :
    (h.setBounds s).Inv ∧ (h.setBounds s).lt = h.lt ∧ (h.setBounds s).keys = h.keys ∧
    (h.setBounds s).indices.length = s ∧
    ∀ v, (h.setBounds s).indices.getD v 0 = h.indices.getD v 0 := by
  have htake : h.indices.take s = h.indices := List.take_of_length_le hs
  have hlen2 : (h.indices ++ List.replicate (s - h.indices.length) 0).length = s := by
    rw [List.length_append, List.length_replicate]
    omega
  have hget2 : ∀ v, (h.indices ++ List.replicate (s - h.indices.length) 0).getD v 0 =
      h.indices.getD v 0 := by
    intro v
    by_cases hv : v < h.indices.length
    · exact getD_append_left _ _ v 0 hv
    · rw [getD_oob h.indices v 0 (by omega)]
      by_cases hv2 : v < s
      · rw [List.getD_eq_getElem?_getD, List.getElem?_append_right (by omega)]
        rw [List.getElem?_replicate]
        split
        · rfl
        · rfl
      · exact getD_oob _ v 0 (by rw [hlen2]; omega)
  have hsb : h.setBounds s =
      ⟨h.lt, h.keys, h.indices ++ List.replicate (s - h.indices.length) 0⟩ := by
    show (⟨h.lt, h.keys, h.indices.take s ++ List.replicate (s - h.indices.length) 0⟩ : Heap) = _
    rw [htake]
  rw [hsb]
  refine ⟨?_, rfl, rfl, hlen2, hget2⟩
  rw [inv_mk_iff]
  refine ⟨HI.1, HI.2.1, ?_, ?_, ?_⟩
  · intro i hi h1
    obtain ⟨b1, b2, b3⟩ := HI.2.2.1 i hi h1
    rw [hlen2, hget2]
    exact ⟨b1, by omega, b3⟩
  · intro v hv hnz
    rw [hget2] at hnz ⊢
    by_cases hvold : v < h.indices.length
    · exact HI.2.2.2.1 v hvold hnz
    · exfalso
      apply hnz
      exact getD_oob h.indices v 0 (by omega)
  · intro i hi h2
    exact HI.2.2.2.2 i hi h2

theorem reserve_spec (h : Heap) (s : Nat) (HI : h.Inv) :
    (h.reserve s).Inv ∧ (h.reserve s).lt = h.lt ∧ (h.reserve s).keys = h.keys ∧
    h.indices.length ≤ (h.reserve s).indices.length ∧
    ∀ v, (h.reserve s).indices.getD v 0 = h.indices.getD v 0 := by
  by_cases hgrow : h.indices.length < s
  · have he : h.reserve s = h.setBounds s := by
      simp only [Heap.reserve]
      rw [if_pos hgrow]
    rw [he]
    have hsb := setBounds_spec h s HI (by omega)
    exact ⟨hsb.1, hsb.2.1, hsb.2.2.1, by rw [hsb.2.2.2.1]; omega, hsb.2.2.2.2⟩
  · have he : h.reserve s = h := by
      simp only [Heap.reserve]
      rw [if_neg hgrow]
    rw [he]
    exact ⟨HI, rfl, rfl, Nat.le_refl _, fun v => rfl⟩

theorem contains_char (h : Heap) (HI : h.Inv) (k : Int) (hk0 : 0 ≤ k) :
    h.contains k = true ↔ k ∈ h.keys.drop 1 := by
  constructor
  · intro hc
    obtain ⟨hkc, hnz⟩ := contains_decode h k hk0 hc
    obtain ⟨c1, c2⟩ := HI.2.2.2.1 k.toNat hkc hnz
    rw [Int.toNat_of_nonneg hk0] at c2
    have := mem_drop_one h.keys 0 (h.indices.getD k.toNat 0)
      (Nat.one_le_iff_ne_zero.mpr hnz) c1
    rw [c2] at this
    exact this
  · intro hm
    obtain ⟨j, hj1, hj2, hjk⟩ := exists_slot_of_mem_drop_one h.keys 0 k hm
    obtain ⟨b1, b2, b3⟩ := HI.2.2.1 j hj2 hj1
    rw [hjk] at b2 b3
    rw [contains_iff_entry h k hk0 b2, b3]
    omega

theorem keys_nodup (h : Heap) (HI : h.Inv) : (h.keys.drop 1).Nodup := by
  rw [List.nodup_iff_getElem?_ne_getElem?]
  intro i j hij hj
  have hj2 : j < h.keys.length - 1 := by simpa using hj
  rw [List.getElem?_eq_getElem (by simp; omega), List.getElem?_eq_getElem hj]
  intro hc
  have hbi : i < (h.keys.drop 1).length := by simp; omega
  have hc2 : (h.keys.drop 1)[i] = (h.keys.drop 1)[j] := by injection hc
  rw [List.getElem_drop, List.getElem_drop] at hc2
  have hgd : h.keys.getD (1 + i) 0 = h.keys.getD (1 + j) 0 := by
    rw [getD_eq_getElem h.keys (1 + i) 0 (by omega), getD_eq_getElem h.keys (1 + j) 0 (by omega)]
    exact hc2
  have := inv_key_inj h HI (1 + i) (1 + j) (by omega) (by omega) (by omega) (by omega) hgd
  omega

theorem mem_of_ms_eq {l1 l2 : List Int} {x k : Int}
    (hms : (↑l1 : Multiset Int) = x ::ₘ (↑l2 : Multiset Int)) (hk : k ≠ x) :
    (k ∈ l1 ↔ k ∈ l2) := by
  rw [← Multiset.mem_coe, ← Multiset.mem_coe, hms, Multiset.mem_cons]
  exact ⟨fun hh => hh.resolve_left hk, fun hh => Or.inr hh⟩

theorem not_mem_of_ms_eq {l1 l2 : List Int} {x : Int}
    (hms : (↑l1 : Multiset Int) = x ::ₘ (↑l2 : Multiset Int)) (hnd : l1.Nodup) :
    x ∉ l2 := by
  intro hmem
  have h1 : (↑l1 : Multiset Int).count x ≤ 1 :=
    Multiset.nodup_iff_count_le_one.mp (Multiset.coe_nodup.mpr hnd) x
  rw [hms, Multiset.count_cons_self] at h1
  have h2 : 1 ≤ (↑l2 : Multiset Int).count x :=
    Multiset.one_le_count_iff_mem.mpr (Multiset.mem_coe.mpr hmem)
  omega

theorem step_spec (h : Heap) (op : HeapOp) (k : Int) (hk0 : 0 ≤ k) (W : WeakLT h.lt)
    (HI : h.Inv) (hv : h.validOp op = true) :
    (h.step op).Inv ∧ (h.step op).lt = h.lt ∧
    (h.step op).contains k = Heap.removalStatus k h (h.contains k) op := by
  cases op with
  | insert j =>
    simp only [Heap.validOp, Bool.and_eq_true, decide_eq_true_eq, Bool.not_eq_true'] at hv
    obtain ⟨⟨hj0, hjc⟩, hjnc⟩ := hv
    have hspec := insert_spec h j W HI hj0 hjc hjnc
    refine ⟨hspec.1, hspec.2.1, ?_⟩
    show (h.insert j).contains k = if j = k then true else h.contains k
    by_cases hjk : j = k
    · subst hjk
      rw [if_pos rfl, (contains_char (h.insert j) hspec.1 j hj0).mpr]
      rw [← Multiset.mem_coe, hspec.2.2.2.2]
      exact Multiset.mem_cons_self j _
    · rw [if_neg hjk, Bool.eq_iff_iff,
        contains_char (h.insert j) hspec.1 k hk0, contains_char h HI k hk0]
      exact mem_of_ms_eq hspec.2.2.2.2 (fun hc => hjk hc.symm)
  | eraseMin =>
    simp only [Heap.validOp, decide_eq_true_eq] at hv
    have hspec := eraseMin_spec h W HI hv
    have hn2 : 2 ≤ h.keys.length := by have := HI.1; omega
    have rt0 : 0 ≤ h.keys.getD 1 0 := (HI.2.2.1 1 (by omega) (by omega)).1
    have hms := hspec.2.2.2.2.2
    refine ⟨hspec.1, hspec.2.2.1, ?_⟩
    show (h.eraseMin).1.contains k = if h.minValue = k then false else h.contains k
    by_cases hrk : h.minValue = k
    · rw [if_pos hrk]
      subst hrk
      have hnm : h.keys.getD 1 0 ∉ ((h.eraseMin).1.keys.drop 1) :=
        not_mem_of_ms_eq hms (keys_nodup h HI)
      rw [Bool.eq_false_iff]
      intro hcon
      exact hnm ((contains_char (h.eraseMin).1 hspec.1 _ rt0).mp hcon)
    · rw [if_neg hrk, Bool.eq_iff_iff,
        contains_char (h.eraseMin).1 hspec.1 k hk0, contains_char h HI k hk0]
      exact (mem_of_ms_eq hms (fun hc => hrk hc.symm)).symm
  | erase j =>
    simp only [Heap.validOp, Bool.and_eq_true, decide_eq_true_eq] at hv
    obtain ⟨hj0, hjc⟩ := hv
    have hspec := erase_spec h j W HI hj0 hjc
    have hms := hspec.2.2.2.2
    refine ⟨hspec.1, hspec.2.1, ?_⟩
    show (h.erase j).contains k = if j = k then false else h.contains k
    by_cases hjk : j = k
    · rw [if_pos hjk]
      subst hjk
      have hnm : j ∉ ((h.erase j).keys.drop 1) :=
        not_mem_of_ms_eq hms (keys_nodup h HI)
      rw [Bool.eq_false_iff]
      intro hcon
      exact hnm ((contains_char (h.erase j) hspec.1 j hj0).mp hcon)
    · rw [if_neg hjk, Bool.eq_iff_iff,
        contains_char (h.erase j) hspec.1 k hk0, contains_char h HI k hk0]
      exact (mem_of_ms_eq hms (fun hc => hjk hc.symm)).symm
  | decreased j =>
    simp only [Heap.validOp, Bool.and_eq_true, decide_eq_true_eq] at hv
    obtain ⟨hj0, hjc⟩ := hv
    have he : h.step (.decreased j) = h := decreased_noop h j HI hj0 hjc
    rw [he]
    exact ⟨HI, rfl, rfl⟩
  | increased j =>
    simp only [Heap.validOp, Bool.and_eq_true, decide_eq_true_eq] at hv
    obtain ⟨hj0, hjc⟩ := hv
    have hspec := increased_spec h j W HI hj0 hjc
    refine ⟨hspec.1, hspec.2.1, ?_⟩
    show (h.increased j).contains k = h.contains k
    rw [Bool.eq_iff_iff,
      contains_char (h.increased j) hspec.1 k hk0, contains_char h HI k hk0]
    rw [← Multiset.mem_coe, ← Multiset.mem_coe, hspec.2.2.2.2]
  | heapify =>
    have hspec := heapify_spec h W HI
    refine ⟨hspec.1, hspec.2.1, ?_⟩
    show (h.heapify).contains k = h.contains k
    rw [Bool.eq_iff_iff,
      contains_char h.heapify hspec.1 k hk0, contains_char h HI k hk0]
    rw [← Multiset.mem_coe, ← Multiset.mem_coe, hspec.2.2.2.2]
  | reserve s =>
    have hspec := reserve_spec h s HI
    refine ⟨hspec.1, hspec.2.1, ?_⟩
    show (h.reserve s).contains k = h.contains k
    unfold Heap.contains
    rw [hspec.2.2.2.2 k.toNat]
    by_cases hent : h.indices.getD k.toNat 0 = 0
    · rw [hent]
      simp
    · have hkc : k.toNat < h.indices.length := by
        by_contra hge
        exact hent (getD_oob _ _ 0 (by omega))
      have h1 : k < (h.indices.length : Int) := (Int.toNat_lt hk0).mp hkc
      have h2 : k < ((h.reserve s).indices.length : Int) := by
        have h3 := hspec.2.2.2.1
        omega
      simp [h1, h2, hent]
  | reset =>
    have hspec := reset_spec h HI
    refine ⟨hspec.1, hspec.2.1, ?_⟩
    show (h.reset).contains k = false
    unfold Heap.contains
    rw [hspec.2.2.2.2 k.toNat]
    simp
  | swapWith ks idxs =>
    simp only [Heap.validOp, decide_eq_true_eq] at hv
    exact ⟨hv, rfl, rfl⟩

theorem run_trace (k : Int) (hk0 : 0 ≤ k) : ∀ (ops : List HeapOp) (h : Heap), WeakLT h.lt →
    h.Inv → h.validSeq ops = true →
    (Heap.run h ops).Inv ∧ (Heap.run h ops).lt = h.lt ∧
    (Heap.run h ops).contains k = Heap.statusAfter k h (h.contains k) ops := by
  intro ops
  induction ops with
  | nil =>
    intro h W HI _
    exact ⟨HI, rfl, rfl⟩
  | cons op ops ih =>
    intro h W HI hv
    have hv2 : h.validOp op = true ∧ (h.step op).validSeq ops = true := by
      have : (h.validOp op && (h.step op).validSeq ops) = true := hv
      simpa [Bool.and_eq_true] using this
    have hstep := step_spec h op k hk0 W HI hv2.1
    have hrec := ih (h.step op) (by rw [hstep.2.1]; exact W) hstep.1 hv2.2
    refine ⟨hrec.1, ?_, ?_⟩
    · show (Heap.run (h.step op) ops).lt = h.lt
      rw [hrec.2.1, hstep.2.1]
    · show (Heap.run (h.step op) ops).contains k =
        Heap.statusAfter k (h.step op) (Heap.removalStatus k h (h.contains k) op) ops
      rw [hrec.2.2, hstep.2.2]

theorem root_min (h : Heap) (W : WeakLT h.lt) (HI : h.Inv) :
    ∀ j, j < h.keys.length → 1 ≤ j → h.lt (h.keys.getD j 0) (h.keys.getD 1 0) = false := by
  intro j
  induction j using Nat.strong_induction_on with
  | _ j ih =>
    intro hj h1
    by_cases hj1 : j = 1
    · subst hj1
      exact W.irrefl _
    · have h2 : 2 ≤ j := by omega
      have hord := HI.2.2.2.2 j hj h2
      have hp := ih (j / 2) (by omega) (by omega) (by omega)
      exact W.2 _ _ _ hp hord

theorem root_le_mem (h : Heap) (W : WeakLT h.lt) (HI : h.Inv) (x : Int)
    (hx : x ∈ h.keys.drop 1) : h.lt x (h.keys.getD 1 0) = false := by
  obtain ⟨j, hj1, hj2, hjx⟩ := exists_slot_of_mem_drop_one h.keys 0 x hx
  rw [← hjx]
  exact root_min h W HI j hj2 hj1

theorem extractAllGo_spec : ∀ (fuel : Nat) (h : Heap), WeakLT h.lt → h.Inv →
    h.keys.length ≤ fuel + 1 →
    List.Pairwise (fun a b => h.lt b a = false) (Heap.extractAllGo fuel h) ∧
    (↑(Heap.extractAllGo fuel h) : Multiset Int) = ↑(h.keys.drop 1) := by
  intro fuel
  induction fuel with
  | zero =>
    intro h W HI hle
    refine ⟨List.Pairwise.nil, ?_⟩
    show (0 : Multiset Int) = ↑(h.keys.drop 1)
    rw [List.drop_eq_nil_of_le (by have := HI.1; omega)]
    rfl
  | succ fuel ih =>
    intro h W HI hle
    rw [show Heap.extractAllGo (fuel + 1) h = (if h.keys.length = 1 then []
      else (h.eraseMin).2 :: Heap.extractAllGo fuel (h.eraseMin).1) from rfl]
    by_cases hemp : h.keys.length = 1
    · rw [if_pos hemp]
      refine ⟨List.Pairwise.nil, ?_⟩
      show (0 : Multiset Int) = ↑(h.keys.drop 1)
      rw [List.drop_eq_nil_of_le (by omega)]
      rfl
    · rw [if_neg hemp]
      have hspec := eraseMin_spec h W HI hemp
      have hrec := ih (h.eraseMin).1 (by rw [hspec.2.2.1]; exact W) hspec.1
        (by rw [hspec.2.2.2.1]; omega)
      have hlt_eq := hspec.2.2.1
      constructor
      · apply List.Pairwise.cons
        · intro y hy
          have hy2 : y ∈ ((h.eraseMin).1.keys.drop 1) := by
            rw [← Multiset.mem_coe, hrec.2, Multiset.mem_coe] at hy
            exact hy
          have hy3 : y ∈ h.keys.drop 1 := by
            rw [← Multiset.mem_coe, hspec.2.2.2.2.2]
            exact Multiset.mem_cons_of_mem (Multiset.mem_coe.mpr hy2)
          rw [hspec.2.1]
          exact root_le_mem h W HI y hy3
        · have hpw := hrec.1
          rw [hlt_eq] at hpw
          exact hpw
      · rw [← Multiset.cons_coe, hrec.2, hspec.2.1]
        exact hspec.2.2.2.2.2.symm

theorem extractAll_spec (h : Heap) (W : WeakLT h.lt) (HI : h.Inv) :
    List.Pairwise (fun a b => h.lt b a = false) h.extractAll ∧
    (↑(h.extractAll) : Multiset Int) = ↑(h.keys.drop 1) :=
  extractAllGo_spec h.keys.length h W HI (by omega)

theorem inSub_self (i : Nat) : InSub i i := ⟨0, Nat.zero_le i, by simp⟩

theorem inSub_ge {i j : Nat} (h : InSub i j) : i ≤ j := by
  obtain ⟨d, _, he⟩ := h
  rw [← he]
  exact Nat.div_le_self j (2 ^ d)

theorem inSub_split {i j : Nat} (_h1 : 1 ≤ i) (h : InSub i j) :
    j = i ∨ InSub (2 * i) j ∨ InSub (2 * i + 1) j := by
  obtain ⟨d, hd, he⟩ := h
  cases d with
  | zero =>
    left
    simpa using he
  | succ d2 =>
    right
    have hstep : j / 2 ^ (d2 + 1) = (j / 2 ^ d2) / 2 := by
      rw [pow_succ, ← Nat.div_div_eq_div_mul]
    rw [hstep] at he
    have hm2 : j / 2 ^ d2 = 2 * i ∨ j / 2 ^ d2 = 2 * i + 1 := by omega
    rcases hm2 with hcase | hcase
    · left
      exact ⟨d2, by omega, hcase⟩
    · right
      exact ⟨d2, by omega, hcase⟩

theorem inSub_child {i c j : Nat} (h1 : 1 ≤ i) (hc : c = 2 * i ∨ c = 2 * i + 1)
    (h : InSub c j) : InSub i j := by
  obtain ⟨d, hd, he⟩ := h
  have hpow : 2 ^ (d + 1) ≤ j := by
    have hmul : (j / 2 ^ d) * 2 ^ d ≤ j := Nat.div_mul_le_self j (2 ^ d)
    rw [he] at hmul
    have h2 : 2 ≤ c := by omega
    calc 2 ^ (d + 1) = 2 * 2 ^ d := by rw [pow_succ]; ring
    _ ≤ c * 2 ^ d := Nat.mul_le_mul_right _ h2
    _ ≤ j := hmul
  have hdlt : d + 1 < 2 ^ (d + 1) := Nat.lt_two_pow (d + 1)
  refine ⟨d + 1, by omega, ?_⟩
  rw [pow_succ, ← Nat.div_div_eq_div_mul, he]
  omega

theorem inSub_disjoint {i j : Nat} (h1 : 1 ≤ i) :
    ¬(InSub (2 * i) j ∧ InSub (2 * i + 1) j) := by
  rintro ⟨⟨d, hd, he⟩, ⟨e, hee, hf⟩⟩
  rcases Nat.lt_trichotomy d e with hlt | heq | hgt
  · have hstep : j / 2 ^ e = (j / 2 ^ d) / 2 ^ (e - d) := by
      rw [Nat.div_div_eq_div_mul, ← pow_add]
      congr 2
      omega
    rw [he] at hstep
    have h2 : 2 ≤ 2 ^ (e - d) := by
      calc 2 = 2 ^ 1 := rfl
      _ ≤ 2 ^ (e - d) := Nat.pow_le_pow_right (by omega) (by omega)
    have h3 : (2 * i) / 2 ^ (e - d) ≤ (2 * i) / 2 := Nat.div_le_div_left h2 (by omega)
    rw [hf] at hstep
    omega
  · subst heq
    omega
  · have hstep : j / 2 ^ d = (j / 2 ^ e) / 2 ^ (d - e) := by
      rw [Nat.div_div_eq_div_mul, ← pow_add]
      congr 2
      omega
    rw [hf] at hstep
    have h2 : 2 ≤ 2 ^ (d - e) := by
      calc 2 = 2 ^ 1 := rfl
      _ ≤ 2 ^ (d - e) := Nat.pow_le_pow_right (by omega) (by omega)
    have h3 : (2 * i + 1) / 2 ^ (d - e) ≤ (2 * i + 1) / 2 := Nat.div_le_div_left h2 (by omega)
    rw [he] at hstep
    omega

theorem inSub_one (j : Nat) (h1 : 1 ≤ j) : InSub 1 j := by
  induction j using Nat.strong_induction_on with
  | _ j ih =>
    by_cases hj : j = 1
    · subst hj
      exact inSub_self 1
    · have h2 : 2 ≤ j := by omega
      obtain ⟨d, hd, he⟩ := ih (j / 2) (by omega) (by omega)
      refine ⟨d + 1, by omega, ?_⟩
      rw [Nat.pow_succ', ← Nat.div_div_eq_div_mul]
      exact he

theorem subSlots_split (sz i : Nat) (h1 : 1 ≤ i) (h2 : i < sz) :
    subSlots sz i = insert i (subSlots sz (2 * i) ∪ subSlots sz (2 * i + 1)) := by
  ext j
  simp only [subSlots, Finset.mem_filter, Finset.mem_range, Finset.mem_insert, Finset.mem_union]
  constructor
  · rintro ⟨hjr, hj1, hsub⟩
    rcases inSub_split h1 hsub with hji | hch | hch
    · exact Or.inl hji
    · exact Or.inr (Or.inl ⟨hjr, hj1, hch⟩)
    · exact Or.inr (Or.inr ⟨hjr, hj1, hch⟩)
  · rintro (hji | ⟨hjr, hj1, hch⟩ | ⟨hjr, hj1, hch⟩)
    · subst hji
      exact ⟨h2, h1, inSub_self j⟩
    · exact ⟨hjr, hj1, inSub_child h1 (Or.inl rfl) hch⟩
    · exact ⟨hjr, hj1, inSub_child h1 (Or.inr rfl) hch⟩

theorem subSlots_children_disjoint (sz i : Nat) (h1 : 1 ≤ i) :
    Disjoint (subSlots sz (2 * i)) (subSlots sz (2 * i + 1)) := by
  rw [Finset.disjoint_left]
  intro j hj1 hj2
  simp only [subSlots, Finset.mem_filter] at hj1 hj2
  exact inSub_disjoint h1 ⟨hj1.2.2, hj2.2.2⟩

theorem self_notin_children (sz i : Nat) (h1 : 1 ≤ i) :
    i ∉ subSlots sz (2 * i) ∪ subSlots sz (2 * i + 1) := by
  intro hmem
  rw [Finset.mem_union] at hmem
  rcases hmem with hm | hm
  · simp only [subSlots, Finset.mem_filter] at hm
    have := inSub_ge hm.2.2
    omega
  · simp only [subSlots, Finset.mem_filter] at hm
    have := inSub_ge hm.2.2
    omega

theorem subSlots_empty (sz i : Nat) (h : sz ≤ i) : subSlots sz i = ∅ := by
  ext j
  simp only [subSlots, Finset.mem_filter, Finset.mem_range, Finset.not_mem_empty, iff_false]
  rintro ⟨hjr, hj1, hsub⟩
  have := inSub_ge hsub
  omega

theorem subCount_succ (sz i : Nat) (h1 : 1 ≤ i) (h2 : i < sz) :
    subCount sz i = 1 + subCount sz (2 * i) + subCount sz (2 * i + 1) := by
  unfold subCount
  rw [subSlots_split sz i h1 h2, Finset.card_insert_of_not_mem (self_notin_children sz i h1),
    Finset.card_union_of_disjoint (subSlots_children_disjoint sz i h1)]
  omega

theorem qualMS_succ (lt : Int → Int → Bool) (keys : List Int) (t : Int) (i : Nat)
    (h1 : 1 ≤ i) (h2 : i < keys.length) (hq : lt t (keys.getD i 0) = false) :
    qualMS lt keys t i =
      (keys.getD i 0) ::ₘ (qualMS lt keys t (2 * i) + qualMS lt keys t (2 * i + 1)) := by
  unfold qualMS
  rw [subSlots_split keys.length i h1 h2,
    Finset.sum_insert (self_notin_children keys.length i h1),
    Finset.sum_union (subSlots_children_disjoint keys.length i h1), if_pos hq,
    Multiset.singleton_add]

theorem qualMS_oob (lt : Int → Int → Bool) (keys : List Int) (t : Int) (i : Nat)
    (h : keys.length ≤ i) : qualMS lt keys t i = 0 := by
  unfold qualMS
  rw [subSlots_empty keys.length i h]
  rfl

theorem anc_chain (lt : Int → Int → Bool) (W : WeakLT lt) (keys : List Int)
    (hord : ∀ j, j < keys.length → 2 ≤ j →
      lt (keys.getD j 0) (keys.getD (j / 2) 0) = false) :
    ∀ d j i, 1 ≤ i → j < keys.length → j / 2 ^ d = i →
    lt (keys.getD j 0) (keys.getD i 0) = false := by
  intro d
  induction d with
  | zero =>
    intro j i h1 hj he
    simp only [pow_zero, Nat.div_one] at he
    subst he
    exact W.irrefl _
  | succ d2 ih =>
    intro j i h1 hj he
    have hstep : j / 2 / 2 ^ d2 = i := by
      rw [Nat.div_div_eq_div_mul, ← Nat.pow_succ']
      exact he
    have hj2 : 2 ≤ j := by
      by_contra hlt
      have hz : j / 2 = 0 := by omega
      rw [hz, Nat.zero_div] at hstep
      omega
    have hih := ih (j / 2) i h1 (by omega) hstep
    have hpair := hord j hj hj2
    exact W.2 _ _ _ hih hpair

theorem qualMS_pruned (lt : Int → Int → Bool) (W : WeakLT lt) (keys : List Int) (t : Int)
    (i : Nat) (h1 : 1 ≤ i)
    (horder : ∀ a j, 1 ≤ a → j < keys.length → InSub a j →
      lt (keys.getD j 0) (keys.getD a 0) = false)
    (hq : lt t (keys.getD i 0) = true) : qualMS lt keys t i = 0 := by
  unfold qualMS
  apply Finset.sum_eq_zero
  intro j hj
  simp only [subSlots, Finset.mem_filter, Finset.mem_range] at hj
  have hje := horder i j h1 hj.1 hj.2.2
  have htj := W.lt_of_lt_of_nlt hq hje
  rw [if_neg (by rw [htj]; simp)]

theorem stackPhi_cons (sz i : Nat) (todo : List Nat) :
    stackPhi sz (i :: todo) = 2 * subCount sz i + 1 + stackPhi sz todo := by
  simp [stackPhi]

theorem findLeGo_ms (lt : Int → Int → Bool) (W : WeakLT lt) (keys : List Int) (t : Int)
    (horder : ∀ a j, 1 ≤ a → j < keys.length → InSub a j →
      lt (keys.getD j 0) (keys.getD a 0) = false) :
    ∀ fuel todo res, (∀ x ∈ todo, 1 ≤ x) → stackPhi keys.length todo ≤ fuel →
    (↑(Heap.findLeGo lt keys t fuel todo res) : Multiset Int) =
      ↑res + (todo.map (qualMS lt keys t)).sum := by
  intro fuel
  induction fuel with
  | zero =>
    intro todo res hpos hphi
    cases todo with
    | nil =>
      show (↑res : Multiset Int) = ↑res + 0
      rw [add_zero]
    | cons i todo =>
      exfalso
      rw [stackPhi_cons] at hphi
      omega
  | succ fuel ih =>
    intro todo res hpos hphi
    cases todo with
    | nil =>
      show (↑res : Multiset Int) = ↑res + 0
      rw [add_zero]
    | cons i todo =>
      have hi1 : 1 ≤ i := hpos i (List.mem_cons_self i todo)
      rw [stackPhi_cons] at hphi
      rw [show Heap.findLeGo lt keys t (fuel + 1) (i :: todo) res =
        (if i < keys.length ∧ lt t (keys.getD i 0) = false then
          Heap.findLeGo lt keys t fuel (Heap.right i :: Heap.left i :: todo)
            (res ++ [keys.getD i 0])
         else Heap.findLeGo lt keys t fuel todo res) from rfl]
      by_cases hq : i < keys.length ∧ lt t (keys.getD i 0) = false
      · rw [if_pos hq]
        have hcount := subCount_succ keys.length i hi1 hq.1
        have hphi2 : stackPhi keys.length (Heap.right i :: Heap.left i :: todo) ≤ fuel := by
          rw [stackPhi_cons, stackPhi_cons]
          simp only [Heap.left, Heap.right]
          omega
        have hpos2 : ∀ x ∈ (Heap.right i :: Heap.left i :: todo), 1 ≤ x := by
          intro x hx
          rcases List.mem_cons.mp hx with hh | hx2
          · subst hh
            simp only [Heap.right]
            omega
          rcases List.mem_cons.mp hx2 with hh | hx3
          · subst hh
            simp only [Heap.left]
            omega
          · exact hpos x (List.mem_cons_of_mem _ hx3)
        rw [ih _ _ hpos2 hphi2]
        rw [show ((Heap.right i :: Heap.left i :: todo).map (qualMS lt keys t)).sum =
          qualMS lt keys t (2 * i + 1) + (qualMS lt keys t (2 * i) +
            (todo.map (qualMS lt keys t)).sum) from by simp [Heap.left, Heap.right]]
        rw [show ((i :: todo).map (qualMS lt keys t)).sum =
          qualMS lt keys t i + (todo.map (qualMS lt keys t)).sum from by simp]
        rw [qualMS_succ lt keys t i hi1 hq.1 hq.2]
        rw [show (↑(res ++ [keys.getD i 0]) : Multiset Int) =
          ↑res + ({keys.getD i 0} : Multiset Int) from rfl]
        rw [← Multiset.singleton_add]
        abel
      · rw [if_neg hq]
        have hq0 : qualMS lt keys t i = 0 := by
          by_cases hrange : i < keys.length
          · have hqt : lt t (keys.getD i 0) = true := by
              rcases Bool.eq_false_or_eq_true (lt t (keys.getD i 0)) with ht2 | hf
              · exact ht2
              · exact absurd ⟨hrange, hf⟩ hq
            exact qualMS_pruned lt W keys t i hi1 horder hqt
          · exact qualMS_oob lt keys t i (by omega)
        rw [ih _ _ (fun x hx => hpos x (List.mem_cons_of_mem _ hx)) (by omega)]
        rw [show ((i :: todo).map (qualMS lt keys t)).sum =
          qualMS lt keys t i + (todo.map (qualMS lt keys t)).sum from by simp, hq0, zero_add]

theorem coe_filter_sum (l : List Int) (P : Int → Bool) :
    (↑(l.filter P) : Multiset Int) = ∑ j ∈ Finset.range l.length,
      (if P (l.getD j 0) = true then ({l.getD j 0} : Multiset Int) else 0) := by
  induction l using List.reverseRecOn with
  | nil => simp
  | append_singleton l x ih =>
    rw [List.filter_append, List.length_append, List.length_singleton,
      Finset.sum_range_succ]
    have hterm : (if P ((l ++ [x]).getD l.length 0) = true
        then ({(l ++ [x]).getD l.length 0} : Multiset Int) else 0) =
        (if P x = true then ({x} : Multiset Int) else 0) := by
      rw [getD_append_last l x 0]
    have hrest : ∑ j ∈ Finset.range l.length,
        (if P ((l ++ [x]).getD j 0) = true then ({(l ++ [x]).getD j 0} : Multiset Int) else 0) =
        ∑ j ∈ Finset.range l.length,
        (if P (l.getD j 0) = true then ({l.getD j 0} : Multiset Int) else 0) := by
      apply Finset.sum_congr rfl
      intro j hj
      rw [Finset.mem_range] at hj
      rw [getD_append_left l [x] j 0 hj]
    rw [hterm, hrest, ← ih]
    by_cases hp : P x = true
    · rw [if_pos hp]
      rw [show List.filter P [x] = [x] from by simp [hp]]
      rw [show (↑(l.filter P ++ [x]) : Multiset Int) =
        ↑(l.filter P) + ({x} : Multiset Int) from rfl]
    · rw [if_neg hp]
      rw [show List.filter P [x] = [] from by simp [Bool.eq_false_iff.mpr hp]]
      simp

theorem sum_range_filter_pos (n : Nat) (f : Nat → Multiset Int) (h : 1 ≤ n) :
    ∑ j ∈ (Finset.range n).filter (fun j => 1 ≤ j), f j =
    ∑ j ∈ Finset.range (n - 1), f (j + 1) := by
  rw [Finset.sum_filter]
  conv_lhs => rw [show n = (n - 1) + 1 from by omega]
  rw [Finset.sum_range_succ']
  simp

theorem drop_filter_sum (l : List Int) (P : Int → Bool) (h : 1 ≤ l.length) :
    (↑((l.drop 1).filter P) : Multiset Int) =
    ∑ j ∈ (Finset.range l.length).filter (fun j => 1 ≤ j),
      (if P (l.getD j 0) = true then ({l.getD j 0} : Multiset Int) else 0) := by
  rw [coe_filter_sum (l.drop 1) P, sum_range_filter_pos l.length _ h]
  apply Finset.sum_congr
  · congr 1
    simp
  · intro j _
    have hg : (l.drop 1).getD j 0 = l.getD (j + 1) 0 := by
      simp
    rw [hg]

theorem subSlots_one (sz : Nat) :
    subSlots sz 1 = (Finset.range sz).filter (fun j => 1 ≤ j) := by
  ext j
  simp only [subSlots, Finset.mem_filter, Finset.mem_range]
  constructor
  · rintro ⟨hjr, hj1, _⟩
    exact ⟨hjr, hj1⟩
  · rintro ⟨hjr, hj1⟩
    exact ⟨hjr, hj1, inSub_one j hj1⟩

theorem qualMS_one (lt : Int → Int → Bool) (keys : List Int) (t : Int) (h : 1 ≤ keys.length) :
    qualMS lt keys t 1 = ↑((keys.drop 1).filter (fun x => !(lt t x))) := by
  unfold qualMS
  rw [subSlots_one, drop_filter_sum keys (fun x => !(lt t x)) h]
  apply Finset.sum_congr rfl
  intro j _
  by_cases hq : lt t (keys.getD j 0) = false
  · rw [if_pos hq, if_pos (by rw [hq]; rfl)]
  · rw [if_neg hq, if_neg (by simpa [Bool.not_eq_true'] using hq)]

theorem findLe_ms (h : Heap) (W : WeakLT h.lt) (HI : h.Inv) (t : Int) (res : List Int) :
    (↑(h.findLe t res) : Multiset Int) =
      ↑res + ↑((h.keys.drop 1).filter (fun k => !(h.lt t k))) := by
  have hn1 : 1 ≤ h.keys.length := HI.1
  have horder : ∀ a j, 1 ≤ a → j < h.keys.length → InSub a j →
      h.lt (h.keys.getD j 0) (h.keys.getD a 0) = false := by
    intro a j ha hj hsub
    obtain ⟨d, _, he⟩ := hsub
    exact anc_chain h.lt W h.keys (fun j2 hj2 h2 => HI.2.2.2.2 j2 hj2 h2) d j a ha hj he
  have hfilter_eq : (Finset.range h.keys.length).filter (fun j => 1 ≤ j) =
      (Finset.range h.keys.length).erase 0 := by
    ext j
    simp [Nat.one_le_iff_ne_zero, and_comm]
  have hcard : subCount h.keys.length 1 ≤ h.keys.length - 1 := by
    unfold subCount
    rw [subSlots_one, hfilter_eq]
    rw [Finset.card_erase_of_mem (by simp; omega)]
    simp
  have hphi : stackPhi h.keys.length [1] ≤ 2 * h.keys.length := by
    rw [show stackPhi h.keys.length [1] = 2 * subCount h.keys.length 1 + 1 from by
      simp [stackPhi]]
    omega
  have hmain := findLeGo_ms h.lt W h.keys t horder (2 * h.keys.length) [1] res
    (by intro x hx; simp at hx; omega) hphi
  show (↑(Heap.findLeGo h.lt h.keys t (2 * h.keys.length) [1] res) : Multiset Int) = _
  rw [hmain]
  rw [show (([1] : List Nat).map (qualMS h.lt h.keys t)).sum = qualMS h.lt h.keys t 1 from by
    simp]
  rw [qualMS_one h.lt h.keys t hn1]

theorem findLeGo_append (lt : Int → Int → Bool) (keys : List Int) (t : Int) :
    ∀ (fuel : Nat) (todo : List Nat) (res : List Int),
    Heap.findLeGo lt keys t fuel todo res = res ++ Heap.findLeGo lt keys t fuel todo [] := by
  intro fuel
  induction fuel with
  | zero =>
    intro todo res
    show res = res ++ []
    rw [List.append_nil]
  | succ fuel ih =>
    intro todo res
    cases todo with
    | nil =>
      show res = res ++ []
      rw [List.append_nil]
    | cons i todo =>
      rw [show Heap.findLeGo lt keys t (fuel + 1) (i :: todo) res =
        (if i < keys.length ∧ lt t (keys.getD i 0) = false then
          Heap.findLeGo lt keys t fuel (Heap.right i :: Heap.left i :: todo)
            (res ++ [keys.getD i 0])
         else Heap.findLeGo lt keys t fuel todo res) from rfl]
      rw [show Heap.findLeGo lt keys t (fuel + 1) (i :: todo) [] =
        (if i < keys.length ∧ lt t (keys.getD i 0) = false then
          Heap.findLeGo lt keys t fuel (Heap.right i :: Heap.left i :: todo)
            ([] ++ [keys.getD i 0])
         else Heap.findLeGo lt keys t fuel todo []) from rfl]
      by_cases hq : i < keys.length ∧ lt t (keys.getD i 0) = false
      · rw [if_pos hq, if_pos hq]
        rw [ih (Heap.right i :: Heap.left i :: todo) (res ++ [keys.getD i 0]),
          ih (Heap.right i :: Heap.left i :: todo) ([] ++ [keys.getD i 0])]
        simp
      · rw [if_neg hq, if_neg hq]
        exact ih todo res

theorem findLe_append (h : Heap) (t : Int) (res : List Int) :
    h.findLe t res = res ++ h.findLe t [] :=
  findLeGo_append h.lt h.keys t (2 * h.keys.length) [1] res

theorem moveUpGo_lengths (lt : Int → Int → Bool) (key : Int) :
    ∀ fuel keys indices idx,
    (Heap.moveUpGo lt key fuel keys indices idx).1.length = (keys : List Int).length ∧
    (Heap.moveUpGo lt key fuel keys indices idx).2.1.length = (indices : List Nat).length := by
  intro fuel
  induction fuel with
  | zero => intro keys indices idx; exact ⟨rfl, rfl⟩
  | succ fuel ih =>
    intro keys indices idx
    rw [show Heap.moveUpGo lt key (fuel + 1) keys indices idx =
      (if Heap.parent idx = 0 ∨ lt key (keys.getD (Heap.parent idx) 0) = false
       then (keys, indices, idx)
       else Heap.moveUpGo lt key fuel (keys.set idx (keys.getD (Heap.parent idx) 0))
         (indices.set (keys.getD (Heap.parent idx) 0).toNat idx) (Heap.parent idx)) from rfl]
    split
    · exact ⟨rfl, rfl⟩
    · have := ih (keys.set idx (keys.getD (Heap.parent idx) 0))
        (indices.set (keys.getD (Heap.parent idx) 0).toNat idx) (Heap.parent idx)
      rw [List.length_set, List.length_set] at this
      exact this

theorem moveDownGo_lengths (lt : Int → Int → Bool) (key : Int) (sz : Nat) :
    ∀ fuel keys indices idx,
    (Heap.moveDownGo lt key sz fuel keys indices idx).1.length = (keys : List Int).length ∧
    (Heap.moveDownGo lt key sz fuel keys indices idx).2.1.length = (indices : List Nat).length := by
  intro fuel
  induction fuel with
  | zero => intro keys indices idx; exact ⟨rfl, rfl⟩
  | succ fuel ih =>
    intro keys indices idx
    rw [show Heap.moveDownGo lt key sz (fuel + 1) keys indices idx =
      (if sz ≤ Heap.left idx then (keys, indices, idx)
       else
        if lt key (keys.getD (if Heap.right idx < sz ∧
            lt (keys.getD (Heap.right idx) 0) (keys.getD (Heap.left idx) 0) = true
          then Heap.right idx else Heap.left idx) 0) = true
        then (keys, indices, idx)
        else Heap.moveDownGo lt key sz fuel
          (keys.set idx (keys.getD (if Heap.right idx < sz ∧
              lt (keys.getD (Heap.right idx) 0) (keys.getD (Heap.left idx) 0) = true
            then Heap.right idx else Heap.left idx) 0))
          (indices.set (keys.getD (if Heap.right idx < sz ∧
              lt (keys.getD (Heap.right idx) 0) (keys.getD (Heap.left idx) 0) = true
            then Heap.right idx else Heap.left idx) 0).toNat idx)
          (if Heap.right idx < sz ∧
              lt (keys.getD (Heap.right idx) 0) (keys.getD (Heap.left idx) 0) = true
            then Heap.right idx else Heap.left idx)) from rfl]
    split
    · exact ⟨rfl, rfl⟩
    · split
      · split
        · exact ⟨rfl, rfl⟩
        · have := ih (keys.set idx (keys.getD (Heap.right idx) 0))
            (indices.set (keys.getD (Heap.right idx) 0).toNat idx) (Heap.right idx)
          rw [List.length_set, List.length_set] at this
          exact this
      · split
        · exact ⟨rfl, rfl⟩
        · have := ih (keys.set idx (keys.getD (Heap.left idx) 0))
            (indices.set (keys.getD (Heap.left idx) 0).toNat idx) (Heap.left idx)
          rw [List.length_set, List.length_set] at this
          exact this

theorem moveDownGo_frame (lt : Int → Int → Bool) (key : Int) (sz : Nat) :
    ∀ fuel keys indices idx, 1 ≤ idx →
    idx ≤ (Heap.moveDownGo lt key sz fuel keys indices idx).2.2 ∧
    ∀ j, j < idx →
      (Heap.moveDownGo lt key sz fuel keys indices idx).1.getD j 0 = keys.getD j 0 := by
  intro fuel
  induction fuel with
  | zero =>
    intro keys indices idx _
    exact ⟨Nat.le_refl idx, fun j _ => rfl⟩
  | succ fuel ih =>
    intro keys indices idx hidx
    rw [show Heap.moveDownGo lt key sz (fuel + 1) keys indices idx =
      (if sz ≤ Heap.left idx then (keys, indices, idx)
       else
        if lt key (keys.getD (if Heap.right idx < sz ∧
            lt (keys.getD (Heap.right idx) 0) (keys.getD (Heap.left idx) 0) = true
          then Heap.right idx else Heap.left idx) 0) = true
        then (keys, indices, idx)
        else Heap.moveDownGo lt key sz fuel
          (keys.set idx (keys.getD (if Heap.right idx < sz ∧
              lt (keys.getD (Heap.right idx) 0) (keys.getD (Heap.left idx) 0) = true
            then Heap.right idx else Heap.left idx) 0))
          (indices.set (keys.getD (if Heap.right idx < sz ∧
              lt (keys.getD (Heap.right idx) 0) (keys.getD (Heap.left idx) 0) = true
            then Heap.right idx else Heap.left idx) 0).toNat idx)
          (if Heap.right idx < sz ∧
              lt (keys.getD (Heap.right idx) 0) (keys.getD (Heap.left idx) 0) = true
            then Heap.right idx else Heap.left idx)) from rfl]
    have hr : Heap.right idx = 2 * idx + 1 := rfl
    have hl : Heap.left idx = 2 * idx := rfl
    split
    · exact ⟨Nat.le_refl idx, fun j _ => rfl⟩
    · split
      · split
        · exact ⟨Nat.le_refl idx, fun j _ => rfl⟩
        · have hrec := ih (keys.set idx (keys.getD (Heap.right idx) 0))
            (indices.set (keys.getD (Heap.right idx) 0).toNat idx) (Heap.right idx)
            (by omega)
          refine ⟨by have := hrec.1; omega, ?_⟩
          intro j hj
          rw [hrec.2 j (by omega)]
          exact getD_set_ne keys idx j _ 0 (by omega)
      · split
        · exact ⟨Nat.le_refl idx, fun j _ => rfl⟩
        · have hrec := ih (keys.set idx (keys.getD (Heap.left idx) 0))
            (indices.set (keys.getD (Heap.left idx) 0).toNat idx) (Heap.left idx)
            (by omega)
          refine ⟨by have := hrec.1; omega, ?_⟩
          intro j hj
          rw [hrec.2 j (by omega)]
          exact getD_set_ne keys idx j _ 0 (by omega)

theorem ascLt_total (a b : Int) (hab : a ≠ b) : ascLt a b = true ∨ ascLt b a = true := by
  rcases lt_trichotomy a b with hh | hh | hh
  · left
    simp [ascLt, hh]
  · exact absurd hh hab
  · right
    simp [ascLt, hh]

theorem make_contains (s : Nat) (lt : Int → Int → Bool) (k : Int) :
    (Heap.make s lt).contains k = false := by
  have hent : (Heap.make s lt).indices.getD k.toNat 0 = 0 := by
    show (List.replicate s 0).getD k.toNat 0 = 0
    by_cases hk : k.toNat < s
    · exact getD_replicate_zero s k.toNat 0 hk
    · exact getD_oob _ _ 0 (by simp; omega)
  rw [show (Heap.make s lt).contains k =
    (decide (k < ((Heap.make s lt).indices.length : Int)) &&
      decide ((Heap.make s lt).indices.getD k.toNat 0 ≠ 0)) from rfl, hent]
  simp

/-- When the comparator is total on distinct keys, the loop of `move_down`
on a heap already satisfying the invariant stops at its first comparison
(the strict test `less_than(key, min_key)` succeeds because the min child
holds a different key that does not sort before `key`), and the two final
writes store back what the arrays already hold. -/
theorem moveDown_noop (h : Heap) (idx : Nat) (HI : h.Inv) (h1 : 1 ≤ idx)
    (h2 : idx < h.keys.length)
    (htot : ∀ a b : Int, a ≠ b → h.lt a b = true ∨ h.lt b a = true) :
    h.moveDown idx = h := by
  obtain ⟨b1, b2, b3⟩ := HI.2.2.1 idx h2 h1
  have hgo : Heap.moveDownGo h.lt (h.keys.getD idx 0) h.keys.length h.keys.length
      h.keys h.indices idx = (h.keys, h.indices, idx) := by
    obtain ⟨n, hn⟩ : ∃ n, h.keys.length = n + 1 := ⟨h.keys.length - 1, by omega⟩
    rw [hn]
    rw [show Heap.moveDownGo h.lt (h.keys.getD idx 0) (n + 1) (n + 1) h.keys h.indices idx =
      (if n + 1 ≤ Heap.left idx then (h.keys, h.indices, idx)
       else
        if h.lt (h.keys.getD idx 0) (h.keys.getD (if Heap.right idx < n + 1 ∧
            h.lt (h.keys.getD (Heap.right idx) 0) (h.keys.getD (Heap.left idx) 0) = true
          then Heap.right idx else Heap.left idx) 0) = true
        then (h.keys, h.indices, idx)
        else Heap.moveDownGo h.lt (h.keys.getD idx 0) (n + 1) n
          (h.keys.set idx (h.keys.getD (if Heap.right idx < n + 1 ∧
              h.lt (h.keys.getD (Heap.right idx) 0) (h.keys.getD (Heap.left idx) 0) = true
            then Heap.right idx else Heap.left idx) 0))
          (h.indices.set (h.keys.getD (if Heap.right idx < n + 1 ∧
              h.lt (h.keys.getD (Heap.right idx) 0) (h.keys.getD (Heap.left idx) 0) = true
            then Heap.right idx else Heap.left idx) 0).toNat idx)
          (if Heap.right idx < n + 1 ∧
              h.lt (h.keys.getD (Heap.right idx) 0) (h.keys.getD (Heap.left idx) 0) = true
            then Heap.right idx else Heap.left idx)) from rfl]
    have hr : Heap.right idx = 2 * idx + 1 := rfl
    have hl : Heap.left idx = 2 * idx := rfl
    by_cases hA : n + 1 ≤ Heap.left idx
    · rw [if_pos hA]
    · rw [if_neg hA]
      set m := (if Heap.right idx < n + 1 ∧
          h.lt (h.keys.getD (Heap.right idx) 0) (h.keys.getD (Heap.left idx) 0) = true
        then Heap.right idx else Heap.left idx) with hm
      have hm_range : m / 2 = idx ∧ 2 ≤ m ∧ m < n + 1 := by
        rw [hm]
        split
        · refine ⟨by omega, by omega, ?_⟩
          next hc => exact hc.1
        · exact ⟨by omega, by omega, by omega⟩
      have hord := HI.2.2.2.2 m (by omega) hm_range.2.1
      rw [hm_range.1] at hord
      have hne : h.keys.getD m 0 ≠ h.keys.getD idx 0 := by
        intro hEq
        have := inv_key_inj h HI m idx (by omega) (by omega) h1 h2 hEq
        omega
      have hlt : h.lt (h.keys.getD idx 0) (h.keys.getD m 0) = true := by
        rcases htot _ _ (Ne.symm hne) with ht | ht
        · exact ht
        · rw [ht] at hord
          cases hord
      rw [if_pos hlt]
  show (⟨h.lt,
    (Heap.moveDownGo h.lt (h.keys.getD idx 0) h.keys.length h.keys.length
      h.keys h.indices idx).1.set
      (Heap.moveDownGo h.lt (h.keys.getD idx 0) h.keys.length h.keys.length
        h.keys h.indices idx).2.2 (h.keys.getD idx 0),
    (Heap.moveDownGo h.lt (h.keys.getD idx 0) h.keys.length h.keys.length
      h.keys h.indices idx).2.1.set (h.keys.getD idx 0).toNat
      (Heap.moveDownGo h.lt (h.keys.getD idx 0) h.keys.length h.keys.length
        h.keys h.indices idx).2.2⟩ : Heap) = h
  rw [hgo]
  show (⟨h.lt, h.keys.set idx (h.keys.getD idx 0),
    h.indices.set (h.keys.getD idx 0).toNat idx⟩ : Heap) = h
  set K := h.keys.getD idx 0 with hK
  have h5 : h.indices.set K.toNat idx = h.indices := by
    rw [← b3]
    exact set_getD_self h.indices K.toNat 0 b2
  rw [set_getD_self h.keys idx 0 h2, h5]

/-- On a valid heap with a child below slot `i`, if the key at `i` does
not sort strictly before the selected min-child key (in particular when
the two are tied), `move_down(i)` swaps: slot `i` receives the min-child
key, which differs from the key it held. -/
theorem moveDown_tie_swaps (h : Heap) (i : Nat) (HI : h.Inv) (h1 : 1 ≤ i)
    (hch : Heap.left i < h.keys.length)
    (hstop : h.lt (h.keys.getD i 0) (h.keys.getD (minChildIdx h i) 0) = false) :
    (h.moveDown i).keys.getD i 0 = h.keys.getD (minChildIdx h i) 0 ∧
    (h.moveDown i).keys.getD i 0 ≠ h.keys.getD i 0 := by
  have hl : Heap.left i = 2 * i := rfl
  have hr : Heap.right i = 2 * i + 1 := rfl
  have h2 : i < h.keys.length := by omega
  have hm_gt : i < minChildIdx h i := by
    unfold minChildIdx
    split <;> omega
  have hm_lt : minChildIdx h i < h.keys.length := by
    unfold minChildIdx
    split
    · next hc => exact hc.1
    · omega
  have hmc : minChildIdx h i = (if Heap.right i < h.keys.length ∧
      h.lt (h.keys.getD (Heap.right i) 0) (h.keys.getD (Heap.left i) 0) = true
    then Heap.right i else Heap.left i) := rfl
  obtain ⟨n, hn⟩ : ∃ n, h.keys.length = n + 1 := ⟨h.keys.length - 1, by omega⟩
  have hmc2 : minChildIdx h i = (if Heap.right i < n + 1 ∧
      h.lt (h.keys.getD (Heap.right i) 0) (h.keys.getD (Heap.left i) 0) = true
    then Heap.right i else Heap.left i) := by
    rw [hmc, hn]
  have hgo1 : Heap.moveDownGo h.lt (h.keys.getD i 0) h.keys.length h.keys.length
      h.keys h.indices i =
      Heap.moveDownGo h.lt (h.keys.getD i 0) h.keys.length n
        (h.keys.set i (h.keys.getD (minChildIdx h i) 0))
        (h.indices.set (h.keys.getD (minChildIdx h i) 0).toNat i) (minChildIdx h i) := by
    conv_lhs => rw [hn]
    rw [show Heap.moveDownGo h.lt (h.keys.getD i 0) (n + 1) (n + 1) h.keys h.indices i =
      (if n + 1 ≤ Heap.left i then (h.keys, h.indices, i)
       else
        if h.lt (h.keys.getD i 0) (h.keys.getD (if Heap.right i < n + 1 ∧
            h.lt (h.keys.getD (Heap.right i) 0) (h.keys.getD (Heap.left i) 0) = true
          then Heap.right i else Heap.left i) 0) = true
        then (h.keys, h.indices, i)
        else Heap.moveDownGo h.lt (h.keys.getD i 0) (n + 1) n
          (h.keys.set i (h.keys.getD (if Heap.right i < n + 1 ∧
              h.lt (h.keys.getD (Heap.right i) 0) (h.keys.getD (Heap.left i) 0) = true
            then Heap.right i else Heap.left i) 0))
          (h.indices.set (h.keys.getD (if Heap.right i < n + 1 ∧
              h.lt (h.keys.getD (Heap.right i) 0) (h.keys.getD (Heap.left i) 0) = true
            then Heap.right i else Heap.left i) 0).toNat i)
          (if Heap.right i < n + 1 ∧
              h.lt (h.keys.getD (Heap.right i) 0) (h.keys.getD (Heap.left i) 0) = true
            then Heap.right i else Heap.left i)) from rfl]
    rw [if_neg (by omega), if_neg (by rw [← hmc2, hstop]; exact Bool.false_ne_true), ← hmc2, ← hn]
  have hframe := moveDownGo_frame h.lt (h.keys.getD i 0) h.keys.length n
    (h.keys.set i (h.keys.getD (minChildIdx h i) 0))
    (h.indices.set (h.keys.getD (minChildIdx h i) 0).toNat i) (minChildIdx h i) (by omega)
  have hkeyi : (h.moveDown i).keys.getD i 0 = h.keys.getD (minChildIdx h i) 0 := by
    show ((Heap.moveDownGo h.lt (h.keys.getD i 0) h.keys.length h.keys.length
        h.keys h.indices i).1.set
      (Heap.moveDownGo h.lt (h.keys.getD i 0) h.keys.length h.keys.length
        h.keys h.indices i).2.2 (h.keys.getD i 0)).getD i 0 = h.keys.getD (minChildIdx h i) 0
    rw [hgo1]
    rw [getD_set_ne _ _ i _ 0 (by have := hframe.1; omega)]
    rw [hframe.2 i hm_gt]
    exact getD_set_self h.keys i _ 0 h2
  refine ⟨hkeyi, ?_⟩
  rw [hkeyi]
  intro hEq
  have := inv_key_inj h HI (minChildIdx h i) i (by omega) hm_lt h1 h2 hEq
  omega

/-- When the freshly inserted key does not sort strictly before the key at
the parent of the append slot, `move_up` moves nothing, so a following
`erase(key)` finds the key in the last slot and restores both arrays
exactly. -/
theorem insert_erase_exact (h : Heap) (k : Int) (hkc : k.toNat < h.indices.length)
    (hfresh : h.indices.getD k.toNat 0 = 0)
    (hstop : Heap.parent h.keys.length = 0 ∨
      h.lt k (h.keys.getD (Heap.parent h.keys.length) 0) = false) :
    (h.insert k).erase k = h := by
  set n := h.keys.length with hn
  set h1 : Heap := ⟨h.lt, h.keys ++ [k], h.indices.set k.toNat n⟩ with hh1
  have hkn : h1.keys.getD n 0 = k := getD_append_last h.keys k 0
  have hins : h.insert k = h1 := by
    show Heap.moveUp h1 n = h1
    apply moveUp_noop h1 n
    · show n < (h.keys ++ [k]).length
      rw [List.length_append, List.length_singleton]
      omega
    · by_cases hpz : Heap.parent n = 0
      · exact Or.inl hpz
      · right
        rw [hkn]
        rcases hstop with hz | hlt
        · exact absurd hz hpz
        · have hp2 : n / 2 ≠ 0 := hpz
          have hpn : Heap.parent n < n := by
            show n / 2 < n
            omega
          rw [show h1.keys.getD (Heap.parent n) 0 = h.keys.getD (Heap.parent n) 0 from
            getD_append_left h.keys [k] (Heap.parent n) 0 hpn]
          exact hlt
    · rw [hkn]
      show (h.indices.set k.toNat n).getD k.toNat 0 = n
      exact getD_set_self h.indices k.toNat n 0 hkc
    · rw [hkn]
      show k.toNat < (h.indices.set k.toNat n).length
      rw [List.length_set]
      exact hkc
  rw [hins]
  have hidx : h1.indices.getD k.toNat 0 = n := getD_set_self h.indices k.toNat n 0 hkc
  have hlen : h1.keys.length = n + 1 := by
    show (h.keys ++ [k]).length = n + 1
    rw [List.length_append, List.length_singleton]
  have he : h1.erase k = ⟨h1.lt, h1.keys.dropLast, h1.indices.set k.toNat 0⟩ := by
    simp only [Heap.erase]
    rw [if_pos (by rw [hidx, hlen]; omega)]
  rw [he]
  show (⟨h.lt, (h.keys ++ [k]).dropLast, (h.indices.set k.toNat n).set k.toNat 0⟩ : Heap) = h
  rw [List.set_set]
  have hdl : (h.keys ++ [k]).dropLast = h.keys := by
    rw [List.dropLast_concat]
  rw [hdl, show h.indices.set k.toNat 0 = h.indices from by
    rw [← hfresh]
    exact set_getD_self h.indices k.toNat 0 hkc]

theorem ascLt_weakLT : WeakLT ascLt := weakLT_of_measure id

theorem tieLt_weakLT : WeakLT tieLt := weakLT_of_measure (fun a => a / 2)

theorem moveUp_size (h : Heap) (i : Nat) :
    (h.moveUp i).indices.length = h.indices.length := by
  show ((Heap.moveUpGo h.lt (h.keys.getD i 0) i h.keys h.indices i).2.1.set
    (h.keys.getD i 0).toNat
    (Heap.moveUpGo h.lt (h.keys.getD i 0) i h.keys h.indices i).2.2).length = h.indices.length
  rw [List.length_set]
  exact (moveUpGo_lengths h.lt (h.keys.getD i 0) i h.keys h.indices i).2

theorem moveUp_klen (h : Heap) (i : Nat) :
    (h.moveUp i).keys.length = h.keys.length := by
  show ((Heap.moveUpGo h.lt (h.keys.getD i 0) i h.keys h.indices i).1.set
    (Heap.moveUpGo h.lt (h.keys.getD i 0) i h.keys h.indices i).2.2
    (h.keys.getD i 0)).length = h.keys.length
  rw [List.length_set]
  exact (moveUpGo_lengths h.lt (h.keys.getD i 0) i h.keys h.indices i).1

theorem moveDown_size (h : Heap) (i : Nat) :
    (h.moveDown i).indices.length = h.indices.length := by
  show ((Heap.moveDownGo h.lt (h.keys.getD i 0) h.keys.length h.keys.length
      h.keys h.indices i).2.1.set (h.keys.getD i 0).toNat
    (Heap.moveDownGo h.lt (h.keys.getD i 0) h.keys.length h.keys.length
      h.keys h.indices i).2.2).length = h.indices.length
  rw [List.length_set]
  exact (moveDownGo_lengths h.lt (h.keys.getD i 0) h.keys.length h.keys.length
    h.keys h.indices i).2

theorem eraseMin_size (h : Heap) : h.eraseMin.1.size = h.size := by
  simp only [Heap.eraseMin, Heap.size]
  split
  · show (h.indices.set (h.keys.getD 1 0).toNat 0).length = h.indices.length
    rw [List.length_set]
  · show (Heap.moveDown ⟨h.lt, (h.keys.set 1 (h.keys.getD (h.keys.length - 1) 0)).dropLast,
      (h.indices.set (h.keys.getD (h.keys.length - 1) 0).toNat 1).set
        (h.keys.getD 1 0).toNat 0⟩ 1).indices.length = h.indices.length
    rw [moveDown_size]
    show (((h.indices.set (h.keys.getD (h.keys.length - 1) 0).toNat 1).set
      (h.keys.getD 1 0).toNat 0)).length = h.indices.length
    rw [List.length_set, List.length_set]

theorem erase_size (h : Heap) (k : Int) : (h.erase k).size = h.size := by
  simp only [Heap.erase, Heap.size]
  split
  · show (h.indices.set k.toNat 0).length = h.indices.length
    rw [List.length_set]
  · split
    · show (Heap.moveUp ⟨h.lt, (h.keys.set (h.indices.getD k.toNat 0)
          (h.keys.getD (h.keys.length - 1) 0)).dropLast,
        (h.indices.set (h.keys.getD (h.keys.length - 1) 0).toNat
          (h.indices.getD k.toNat 0)).set k.toNat 0⟩
        (h.indices.getD k.toNat 0)).indices.length = h.indices.length
      rw [moveUp_size]
      show ((h.indices.set (h.keys.getD (h.keys.length - 1) 0).toNat
        (h.indices.getD k.toNat 0)).set k.toNat 0).length = h.indices.length
      rw [List.length_set, List.length_set]
    · show (Heap.moveDown ⟨h.lt, (h.keys.set (h.indices.getD k.toNat 0)
          (h.keys.getD (h.keys.length - 1) 0)).dropLast,
        (h.indices.set (h.keys.getD (h.keys.length - 1) 0).toNat
          (h.indices.getD k.toNat 0)).set k.toNat 0⟩
        (h.indices.getD k.toNat 0)).indices.length = h.indices.length
      rw [moveDown_size]
      show ((h.indices.set (h.keys.getD (h.keys.length - 1) 0).toNat
        (h.indices.getD k.toNat 0)).set k.toNat 0).length = h.indices.length
      rw [List.length_set, List.length_set]

theorem reset_size (h : Heap) : h.reset.size = h.size := by
  simp only [Heap.reset, Heap.size]
  split
  · rfl
  · show (List.replicate h.indices.length 0).length = h.indices.length
    simp

theorem insert_size (h : Heap) (k : Int) : (h.insert k).size = h.size := by
  show (Heap.moveUp ⟨h.lt, h.keys ++ [k], h.indices.set k.toNat h.keys.length⟩
    h.keys.length).indices.length = h.indices.length
  rw [moveUp_size]
  show (h.indices.set k.toNat h.keys.length).length = h.indices.length
  rw [List.length_set]

theorem insert_klen (h : Heap) (k : Int) :
    (h.insert k).keys.length = h.keys.length + 1 := by
  show (Heap.moveUp ⟨h.lt, h.keys ++ [k], h.indices.set k.toNat h.keys.length⟩
    h.keys.length).keys.length = h.keys.length + 1
  rw [moveUp_klen]
  show (h.keys ++ [k]).length = h.keys.length + 1
  rw [List.length_append, List.length_singleton]

/-! ## The claims -/

/-- C1: after any sequence of valid operations starting from a freshly
constructed heap, every occupied slot `i` of the position array is
inverted by the index array (`m_indices[m_keys[i]] = i`), and every
occupied slot `i > 1` does not sort strictly before its parent slot. -/
theorem C1_invariant_preservation (s : Nat) (lt : Int → Int → Bool) (W : WeakLT lt)
    (ops : List HeapOp) (hv : (Heap.make s lt).validSeq ops = true) :
    (∀ i, i < (Heap.run (Heap.make s lt) ops).keys.length → 1 ≤ i →
      (Heap.run (Heap.make s lt) ops).indices.getD
        ((Heap.run (Heap.make s lt) ops).keys.getD i 0).toNat 0 = i) ∧
    (∀ i, i < (Heap.run (Heap.make s lt) ops).keys.length → 2 ≤ i →
      (Heap.run (Heap.make s lt) ops).lt
        ((Heap.run (Heap.make s lt) ops).keys.getD i 0)
        ((Heap.run (Heap.make s lt) ops).keys.getD (Heap.parent i) 0) = false) := by
  have hrun := run_trace 0 (le_refl 0) ops (Heap.make s lt) W (make_inv s lt) hv
  refine ⟨?_, ?_⟩
  · intro i hi h1
    exact (hrun.1.2.2.1 i hi h1).2.2
  · intro i hi h2
    exact hrun.1.2.2.2.2 i hi h2

theorem C1_witness :
    (Heap.make 5 ascLt).validSeq
      [HeapOp.insert 2, HeapOp.insert 0, HeapOp.insert 4, HeapOp.eraseMin] = true ∧
    ((∀ i, i < (Heap.run (Heap.make 5 ascLt)
        [HeapOp.insert 2, HeapOp.insert 0, HeapOp.insert 4, HeapOp.eraseMin]).keys.length →
        1 ≤ i →
      (Heap.run (Heap.make 5 ascLt)
        [HeapOp.insert 2, HeapOp.insert 0, HeapOp.insert 4, HeapOp.eraseMin]).indices.getD
        ((Heap.run (Heap.make 5 ascLt)
          [HeapOp.insert 2, HeapOp.insert 0, HeapOp.insert 4,
            HeapOp.eraseMin]).keys.getD i 0).toNat 0 = i) ∧
    (∀ i, i < (Heap.run (Heap.make 5 ascLt)
        [HeapOp.insert 2, HeapOp.insert 0, HeapOp.insert 4, HeapOp.eraseMin]).keys.length →
        2 ≤ i →
      (Heap.run (Heap.make 5 ascLt)
        [HeapOp.insert 2, HeapOp.insert 0, HeapOp.insert 4, HeapOp.eraseMin]).lt
        ((Heap.run (Heap.make 5 ascLt)
          [HeapOp.insert 2, HeapOp.insert 0, HeapOp.insert 4,
            HeapOp.eraseMin]).keys.getD i 0)
        ((Heap.run (Heap.make 5 ascLt)
          [HeapOp.insert 2, HeapOp.insert 0, HeapOp.insert 4,
            HeapOp.eraseMin]).keys.getD (Heap.parent i) 0) = false)) :=
  ⟨by decide, C1_invariant_preservation 5 ascLt ascLt_weakLT
    [HeapOp.insert 2, HeapOp.insert 0, HeapOp.insert 4, HeapOp.eraseMin] (by decide)⟩

/-- C2: on any heap satisfying the invariant with a strict-weak-order
comparator, draining the heap returns exactly the stored keys (as a
multiset) in a sequence where no later key sorts strictly before an
earlier one — i.e. ascending by the comparator, with ties in unspecified
relative order. -/
theorem C2_extraction_order (h : Heap) (W : WeakLT h.lt) (HI : h.Inv) :
    List.Pairwise (fun a b => h.lt b a = false) h.extractAll ∧
    (↑(h.extractAll) : Multiset Int) = ↑(h.keys.drop 1) :=
  extractAll_spec h W HI

theorem C2_witness :
    Heap.Inv demoHeap5 ∧
    (List.Pairwise (fun a b => demoHeap5.lt b a = false) demoHeap5.extractAll ∧
      (↑(demoHeap5.extractAll) : Multiset Int) = ↑(demoHeap5.keys.drop 1)) :=
  ⟨by decide, C2_extraction_order demoHeap5 ascLt_weakLT (by decide)⟩

/-- C3 (amended): capacity-5 heap, ascending order.  After inserting 4,
1, 3 the minimum is 1; `erase_min` returns 1 and the new minimum is 3;
after inserting 0 the minimum is 0; after `erase(3)` the next
`erase_min()` returns 0 (not 4: 0 is still present and is the minimum), a
further `erase_min()` returns 4, and only then does the heap become
empty. -/
theorem C3_scenario :
    demoHeap1.minValue = 1 ∧
    demoHeap1.eraseMin.2 = 1 ∧
    (demoHeap1.eraseMin.1).minValue = 3 ∧
    ((demoHeap1.eraseMin.1).insert 0).minValue = 0 ∧
    demoHeap2.eraseMin.2 = 0 ∧
    (demoHeap2.eraseMin.1).eraseMin.2 = 4 ∧
    ((demoHeap2.eraseMin.1).eraseMin.1).empty = true := by decide

theorem C3_counterexample :
    demoHeap2.eraseMin.2 ≠ 4 ∧ (demoHeap2.eraseMin.1).empty = false := by decide

/-- C4 (amended): sift-up never swaps on a tie — whenever the key at a
slot does not sort strictly before its parent's key, `move_up` is the
identity — but sift-down DOES swap on a tie with the selected min child:
the loop of `move_down` breaks only on the strict test
`less_than(key, min_key)`, so when the two are tied the child key is
shifted into the slot, which then holds a different key than before. -/
theorem C4_tie_policy :
    (∀ (h : Heap) (i : Nat), h.Inv → 1 ≤ i → i < h.keys.length →
      h.lt (h.keys.getD i 0) (h.keys.getD (Heap.parent i) 0) = false →
      h.moveUp i = h) ∧
    (∀ (h : Heap) (i : Nat), h.Inv → 1 ≤ i → Heap.left i < h.keys.length →
      h.lt (h.keys.getD i 0) (h.keys.getD (minChildIdx h i) 0) = false →
      (h.moveDown i).keys.getD i 0 = h.keys.getD (minChildIdx h i) 0 ∧
      (h.moveDown i).keys.getD i 0 ≠ h.keys.getD i 0) := by
  constructor
  · intro h i HI h1 h2 hstop
    obtain ⟨b1, b2, b3⟩ := HI.2.2.1 i h2 h1
    exact moveUp_noop h i h2 (Or.inr hstop) b3 b2
  · intro h i HI h1 hch hstop
    exact moveDown_tie_swaps h i HI h1 hch hstop

theorem C4_witness :
    (Heap.Inv tieHeapDown ∧ (1:Nat) ≤ 2 ∧ 2 < tieHeapDown.keys.length ∧
      tieHeapDown.lt (tieHeapDown.keys.getD 2 0)
        (tieHeapDown.keys.getD (Heap.parent 2) 0) = false ∧
      tieHeapDown.moveUp 2 = tieHeapDown) ∧
    (Heap.left 1 < tieHeapDown.keys.length ∧
      tieHeapDown.lt (tieHeapDown.keys.getD 1 0)
        (tieHeapDown.keys.getD (minChildIdx tieHeapDown 1) 0) = false ∧
      ((tieHeapDown.moveDown 1).keys.getD 1 0 =
        tieHeapDown.keys.getD (minChildIdx tieHeapDown 1) 0 ∧
       (tieHeapDown.moveDown 1).keys.getD 1 0 ≠ tieHeapDown.keys.getD 1 0)) :=
  ⟨⟨by decide, by decide, by decide, by decide,
    C4_tie_policy.1 tieHeapDown 2 (by decide) (by decide) (by decide) (by decide)⟩,
   ⟨by decide, by decide,
    C4_tie_policy.2 tieHeapDown 1 (by decide) (by decide) (by decide) (by decide)⟩⟩

theorem C4_counterexample :
    Heap.Inv tieHeapDown ∧
    tieHeapDown.lt (tieHeapDown.keys.getD 1 0) (tieHeapDown.keys.getD 2 0) = false ∧
    tieHeapDown.lt (tieHeapDown.keys.getD 2 0) (tieHeapDown.keys.getD 1 0) = false ∧
    (tieHeapDown.moveDown 1).keys ≠ tieHeapDown.keys := by decide

/-- C5: on a heap satisfying the invariant with a strict-weak-order
comparator, `find_le(t, result)` appends to `result` exactly the present
keys `k` with `!less_than(t, k)` — as a multiset, i.e. the right set of
keys in some unspecified order. -/
theorem C5_findLe_exact (h : Heap) (t : Int) (res : List Int) (W : WeakLT h.lt)
    (HI : h.Inv) :
    (↑(h.findLe t res) : Multiset Int) =
      ↑res + ↑((h.keys.drop 1).filter (fun k => !(h.lt t k))) :=
  findLe_ms h W HI t res

theorem C5_witness :
    Heap.Inv demoHeap5 ∧
    (↑(demoHeap5.findLe 2 []) : Multiset Int) =
      ↑([] : List Int) + ↑((demoHeap5.keys.drop 1).filter (fun k => !(demoHeap5.lt 2 k))) ∧
    (↑(demoHeap5.findLe 2 []) : Multiset Int) = ({0, 1, 2} : Multiset Int) :=
  ⟨by decide, C5_findLe_exact demoHeap5 2 [] ascLt_weakLT (by decide), by decide⟩

/-- C6 (amended): the round trip `insert(k); erase(k)` restores the exact
array state when the sift-up inside `insert` does not move the new key —
i.e. when `k` does not sort strictly before the key at the parent of the
append slot (in particular always when the heap was empty).  In general
the sift-up reshuffles slots and `erase` does not undo it, so only the
key multiset is restored, not the exact arrays. -/
theorem C6_round_trip (h : Heap) (k : Int) (hkc : k.toNat < h.indices.length)
    (hfresh : h.indices.getD k.toNat 0 = 0)
    (hstop : Heap.parent h.keys.length = 0 ∨
      h.lt k (h.keys.getD (Heap.parent h.keys.length) 0) = false) :
    (h.insert k).erase k = h :=
  insert_erase_exact h k hkc hfresh hstop

theorem C6_witness :
    (2:Int).toNat < roundBase.indices.length ∧
    roundBase.indices.getD (2:Int).toNat 0 = 0 ∧
    (Heap.parent roundBase.keys.length = 0 ∨
      roundBase.lt 2 (roundBase.keys.getD (Heap.parent roundBase.keys.length) 0) = false) ∧
    (roundBase.insert 2).erase 2 = roundBase :=
  ⟨by decide, by decide, by decide,
   C6_round_trip roundBase 2 (by decide) (by decide) (by decide)⟩

theorem C6_counterexample :
    Heap.Inv roundHeap ∧
    (2:Int).toNat < roundHeap.indices.length ∧
    roundHeap.contains 2 = false ∧
    ((roundHeap.insert 2).erase 2).keys ≠ roundHeap.keys := by decide

/-- C7 (amended): in this model a key's priority never changes, so the
hypothesis of the claim is exactly "the heap satisfies the invariant".
`decreased(k)` is then always the identity (sift-up stops immediately on
the non-strict test).  `increased(k)` is the identity whenever the
comparator is total on distinct keys, but when the key is tied with its
min child the strict sift-down test fails and a swap occurs, so the claim
is false in general — see the counterexample. -/
theorem C7_repriority_noop :
    (∀ (h : Heap) (k : Int), h.Inv → 0 ≤ k → h.contains k = true →
      h.decreased k = h) ∧
    (∀ (h : Heap) (k : Int), h.Inv → 0 ≤ k → h.contains k = true →
      (∀ a b : Int, a ≠ b → h.lt a b = true ∨ h.lt b a = true) →
      h.increased k = h) := by
  constructor
  · intro h k HI hk0 hc
    exact decreased_noop h k HI hk0 hc
  · intro h k HI hk0 hc htot
    obtain ⟨hkc, hnz⟩ := contains_decode h k hk0 hc
    obtain ⟨he_lt, _⟩ := HI.2.2.2.1 k.toNat hkc hnz
    exact moveDown_noop h (h.indices.getD k.toNat 0) HI
      (Nat.one_le_iff_ne_zero.mpr hnz) he_lt htot

theorem C7_witness :
    Heap.Inv demoHeap5 ∧ demoHeap5.contains 3 = true ∧
    demoHeap5.decreased 3 = demoHeap5 ∧ demoHeap5.increased 3 = demoHeap5 :=
  ⟨by decide, by decide,
   C7_repriority_noop.1 demoHeap5 3 (by decide) (by decide) (by decide),
   C7_repriority_noop.2 demoHeap5 3 (by decide) (by decide) (by decide)
     (fun a b hab => ascLt_total a b hab)⟩

theorem C7_counterexample :
    Heap.Inv tieHeapInc ∧ tieHeapInc.contains 4 = true ∧
    (tieHeapInc.increased 4).keys ≠ tieHeapInc.keys := by decide

/-- C8: after any valid operation sequence from a fresh heap,
`contains(k)` agrees with the history-derived status of `k` (set by
`insert k`, cleared by `erase k`, by an `erase_min` that returns `k`, and
by `reset`), and it is equivalently the index-entry test
`k < m_indices.size() && m_indices[k] != 0`. -/
theorem C8_membership (s : Nat) (lt : Int → Int → Bool) (W : WeakLT lt) (k : Int)
    (hk0 : 0 ≤ k) (ops : List HeapOp) (hv : (Heap.make s lt).validSeq ops = true) :
    (Heap.run (Heap.make s lt) ops).contains k =
      Heap.statusAfter k (Heap.make s lt) false ops ∧
    ((Heap.run (Heap.make s lt) ops).contains k = true ↔
      (k < ((Heap.run (Heap.make s lt) ops).indices.length : Int) ∧
        (Heap.run (Heap.make s lt) ops).indices.getD k.toNat 0 ≠ 0)) := by
  have hrun := run_trace k hk0 ops (Heap.make s lt) W (make_inv s lt) hv
  constructor
  · rw [← make_contains s lt k]
    exact hrun.2.2
  · show (decide (k < ((Heap.run (Heap.make s lt) ops).indices.length : Int)) &&
      decide ((Heap.run (Heap.make s lt) ops).indices.getD k.toNat 0 ≠ 0)) = true ↔ _
    rw [Bool.and_eq_true]
    simp only [decide_eq_true_eq]

theorem C8_witness :
    (0:Int) ≤ 1 ∧
    (Heap.make 5 ascLt).validSeq
      [HeapOp.insert 1, HeapOp.insert 3, HeapOp.insert 2, HeapOp.eraseMin,
        HeapOp.erase 3] = true ∧
    ((Heap.run (Heap.make 5 ascLt)
        [HeapOp.insert 1, HeapOp.insert 3, HeapOp.insert 2, HeapOp.eraseMin,
          HeapOp.erase 3]).contains 1 =
      Heap.statusAfter 1 (Heap.make 5 ascLt) false
        [HeapOp.insert 1, HeapOp.insert 3, HeapOp.insert 2, HeapOp.eraseMin,
          HeapOp.erase 3] ∧
    ((Heap.run (Heap.make 5 ascLt)
        [HeapOp.insert 1, HeapOp.insert 3, HeapOp.insert 2, HeapOp.eraseMin,
          HeapOp.erase 3]).contains 1 = true ↔
      ((1:Int) < ((Heap.run (Heap.make 5 ascLt)
          [HeapOp.insert 1, HeapOp.insert 3, HeapOp.insert 2, HeapOp.eraseMin,
            HeapOp.erase 3]).indices.length : Int) ∧
        (Heap.run (Heap.make 5 ascLt)
          [HeapOp.insert 1, HeapOp.insert 3, HeapOp.insert 2, HeapOp.eraseMin,
            HeapOp.erase 3]).indices.getD (1:Int).toNat 0 ≠ 0))) :=
  ⟨by decide, by decide,
   C8_membership 5 ascLt ascLt_weakLT 1 (by decide)
     [HeapOp.insert 1, HeapOp.insert 3, HeapOp.insert 2, HeapOp.eraseMin,
       HeapOp.erase 3] (by decide)⟩

/-- C9: `size()` returns the declared capacity — the length of the index
array — not the element count: it equals the constructor argument and is
unchanged by insert, erase_min, erase, and reset, while the element count
(position-array length minus one) does change (insert adds a slot; the
fresh heap has zero elements). -/
theorem C9_size_capacity (h : Heap) (k : Int) (c : Nat) (lt : Int → Int → Bool) :
    h.size = h.indices.length ∧
    (Heap.make c lt).size = c ∧
    (h.insert k).size = h.size ∧
    h.eraseMin.1.size = h.size ∧
    (h.erase k).size = h.size ∧
    h.reset.size = h.size ∧
    (h.insert k).keys.length = h.keys.length + 1 ∧
    (Heap.make c lt).keys.length - 1 = 0 := by
  refine ⟨rfl, ?_, insert_size h k, eraseMin_size h, erase_size h k, reset_size h,
    insert_klen h k, rfl⟩
  show (List.replicate c (0:Nat)).length = c
  simp

/-- C10: `find_le` only reads the heap — in this embedding it is a pure
function returning the result vector, leaving the `Heap` value untouched
by construction — and it appends to the caller's vector: the output is
exactly the old contents of `result`, in their original order, followed
by the keys the traversal collects from an empty vector. -/
theorem C10_findLe_frame (h : Heap) (t : Int) (res : List Int) :
    h.findLe t res = res ++ h.findLe t [] :=
  findLe_append h t res
